import Mathlib

/-
Verification of the point-group core (src/lib/python/grendel/symmetry/point_group.py).

The embedding translates the PointGroup construction pipeline into executable
Lean definitions.  Matrices of symmetry operations are represented exactly,
with exact integer entries; the numeric tolerance comparisons of the source
(symmetry tolerance 1e-4, ring-angle tolerance about 2 degrees) collapse to
exact comparisons on this representation, because all concrete matrices and
axes handled here differ by far more than the tolerances when they differ at
all.  External collaborator code (the SymmetryOperation abstraction: matrix
composition, tolerance equality, axis predicates, the total order used by
sorting) is not part of the source tree; those pieces are modelled from the
spec and carry a `Modelled from the spec:` note.
-/

namespace PG

/-- A 3-vector with exact integer coordinates (operation axes). -/
structure Vec3 where
  vx : ℤ
  vy : ℤ
  vz : ℤ
deriving DecidableEq

/-- A 3x3 matrix with exact integer entries (operation matrices). -/
structure Mat3 where
  a11 : ℤ
  a12 : ℤ
  a13 : ℤ
  a21 : ℤ
  a22 : ℤ
  a23 : ℤ
  a31 : ℤ
  a32 : ℤ
  a33 : ℤ
deriving DecidableEq

namespace Mat3

/-- Matrix product, row-by-column. -/
def mul (A B : Mat3) : Mat3 :=
  ⟨A.a11 * B.a11 + A.a12 * B.a21 + A.a13 * B.a31,
   A.a11 * B.a12 + A.a12 * B.a22 + A.a13 * B.a32,
   A.a11 * B.a13 + A.a12 * B.a23 + A.a13 * B.a33,
   A.a21 * B.a11 + A.a22 * B.a21 + A.a23 * B.a31,
   A.a21 * B.a12 + A.a22 * B.a22 + A.a23 * B.a32,
   A.a21 * B.a13 + A.a22 * B.a23 + A.a23 * B.a33,
   A.a31 * B.a11 + A.a32 * B.a21 + A.a33 * B.a31,
   A.a31 * B.a12 + A.a32 * B.a22 + A.a33 * B.a32,
   A.a31 * B.a13 + A.a32 * B.a23 + A.a33 * B.a33⟩

/-- The identity matrix. -/
def one : Mat3 := ⟨1, 0, 0, 0, 1, 0, 0, 0, 1⟩

/-- Interpretation into Mathlib matrices, used only to transport algebra facts. -/
def toM (A : Mat3) : Matrix (Fin 3) (Fin 3) ℤ :=
  Matrix.of ![![A.a11, A.a12, A.a13], ![A.a21, A.a22, A.a23], ![A.a31, A.a32, A.a33]]


end Mat3

namespace Vec3

/-- Cross product, used by the exact axis-parallelism test. -/
def cross (u v : Vec3) : Vec3 :=
  ⟨u.vy * v.vz - u.vz * v.vy, u.vz * v.vx - u.vx * v.vz, u.vx * v.vy - u.vy * v.vx⟩

/-- Dot product. -/
def dot (u v : Vec3) : ℤ :=
  u.vx * v.vx + u.vy * v.vy + u.vz * v.vz

def zero : Vec3 := ⟨0, 0, 0⟩

def add (u v : Vec3) : Vec3 := ⟨u.vx + v.vx, u.vy + v.vy, u.vz + v.vz⟩

def sub (u v : Vec3) : Vec3 := ⟨u.vx - v.vx, u.vy - v.vy, u.vz - v.vz⟩

end Vec3

/-- Modelled from the spec: the tolerance-based same-axis predicate of the
external SymmetryOperation abstraction (`is_same_axis`, ring-angle tolerance
about 2 degrees).  On the exact axes used here it is exact parallelism
(possibly with opposite orientation), tested by a vanishing cross product with
a non-vanishing dot product. -/
def is_same_axis (u v : Vec3) : Bool :=
  Vec3.cross u v == Vec3.zero && Vec3.dot u v != 0

/-- Modelled from the spec: the tolerance-based perpendicular-axis predicate
of the external SymmetryOperation abstraction (`is_perpendicular`). -/
def is_perpendicular (u v : Vec3) : Bool :=
  Vec3.dot u v == 0

/-- Modelled from the spec: the tolerance-based matrix comparison of the
external SymmetryOperation abstraction (`is_same_matrix`, tolerance 1e-4),
exact on this representation. -/
def is_same_matrix (A B : Mat3) : Bool :=
  A == B

/-- The operation kinds of the tagged variant (IdentityOperation, Rotation,
ImproperRotation, Reflection, Inversion). -/
inductive OpKind where
  | identity
  | rotation
  | improperRotation
  | reflection
  | inversion
deriving DecidableEq

/-- A symmetry operation: the kind discriminant, the rotation order `n`, the
`exponent`, the `axis`, the `matrix`, and the three mutable slots written
during construction (`name`, `inverse`, `principal_reflection`).  The inverse
slot stores the matrix of the linked inverse operation, since operation
equality in the source is tolerance equality of matrices. -/
structure SymOp where
  kind : OpKind
  n : Nat
  exponent : Nat
  axis : Vec3
  matrix : Mat3
  name : String
  inverse : Option Mat3
  principal_reflection : Bool
deriving DecidableEq

instance : Inhabited SymOp :=
  ⟨⟨OpKind.identity, 0, 0, Vec3.zero, Mat3.one, "", none, false⟩⟩

/-- The errors of the construction pipeline (all are `GroupTheoryError`s in
the source; the constructors record which message was raised). -/
inductive GTErr where
  | missingIdentity
  | groupNotClosed (m : Mat3)
  | opNotFound
  | nonUniqueInverse
  | classesNotDisjoint
  | unclassifiableGroup
  | namingFailed
  | inverseNotSet
deriving DecidableEq

/-- `PointGroup.element_with_matrix`: the element of the group whose matrix
matches `m`, or the "Group not closed" error. -/
def element_with_matrix (ops : List SymOp) (m : Mat3) : Except GTErr SymOp :=
  match ops.find? (fun o => is_same_matrix o.matrix m) with
  | some o => .ok o
  | none => .error (.groupNotClosed m)

/-- `PointGroup.element_for`: the element equal (within tolerance) to `op`.
When `gen` (the `_generate_elements` mode) is true and no element matches,
`op` is appended to the operations and returned; otherwise a missing match is
a fatal error. -/
def element_for (gen : Bool) (ops : List SymOp) (op : SymOp) :
    Except GTErr (SymOp × List SymOp) :=
  match ops.find? (fun o => is_same_matrix o.matrix op.matrix) with
  | some o => .ok (o, ops)
  | none =>
    if gen then .ok (op, ops ++ [op])
    else .error .opNotFound

/-- `PointGroup.identity_element`: the first identity-kind operation. -/
def identity_element (ops : List SymOp) : Except GTErr SymOp :=
  match ops.find? (fun o => o.kind == OpKind.identity) with
  | some o => .ok o
  | none => .error .missingIdentity

/-- Modelled from the spec: the composition operator of the external
SymmetryOperation abstraction.  `a * b` multiplies the matrices and resolves
the product to the canonical group element through the matrix lookup, so an
unmatched product surfaces as the "Group not closed" error of
`element_with_matrix` (the spec reports this error "with the generator list
and the stray matrix", which is exactly the message built there). -/
def op_mul (ops : List SymOp) (a b : SymOp) : Except GTErr SymOp :=
  element_with_matrix ops (a.matrix.mul b.matrix)

/-- Write `m` into the inverse slot of the operation at index `i`. -/
def setInverse (ops : List SymOp) (i : Nat) (m : Mat3) : List SymOp :=
  match ops[i]? with
  | some o => ops.set i { o with inverse := some m }
  | none => ops

/-- The body of the double loop of `PointGroup._check_closure` for the pair
of indices `ij`: compose the two operations (raising "Group not closed" on an
unmatched product), and when the product equals the identity element, link
the two inverse slots, raising the "Inverse not unique" error when a slot
already holds a different value. -/
def closure_step (ops : List SymOp) (ij : Nat × Nat) : Except GTErr (List SymOp) :=
  let a := ops.getD ij.1 default
  let b := ops.getD ij.2 default
  match op_mul ops a b with
  | .error e => .error e
  | .ok p =>
    match identity_element ops with
    | .error e => .error e
    | .ok idel =>
      if is_same_matrix p.matrix idel.matrix then
        if (a.inverse.isSome && a.inverse != some b.matrix) ||
            (b.inverse.isSome && b.inverse != some a.matrix) then
          .error .nonUniqueInverse
        else
          .ok (setInverse (setInverse ops ij.1 b.matrix) ij.2 a.matrix)
      else .ok ops

/-- All index pairs `(i, j)` with `i, j < n`, in the iteration order of the
nested loops. -/
def pairList (n : Nat) : List (Nat × Nat) :=
  (List.range n).flatMap (fun i => (List.range n).map (fun j => (i, j)))

/-- `PointGroup._check_closure`. -/
def check_closure (ops : List SymOp) : Except GTErr (List SymOp) :=
  (pairList ops.length).foldlM closure_step ops

/-- Modelled from the spec: `ConjugacyClass.add_element` — class membership is
a set keyed by tolerance equality, so adding is duplicate-safe. -/
def addElement (cl : List Mat3) (m : Mat3) : List Mat3 :=
  if m ∈ cl then cl else cl ++ [m]

/-- The conjugate `g * op * g.inverse` computed as in the source: two
compositions, each resolved through the canonical-element lookup.  A missing
inverse slot is the analogue of the attribute failure the source would hit. -/
def conj_elem (ops : List SymOp) (g op : SymOp) : Except GTErr Mat3 :=
  match g.inverse with
  | none => .error .inverseNotSet
  | some gi =>
    match element_with_matrix ops (g.matrix.mul op.matrix) with
    | .error e => .error e
    | .ok x1 =>
      match element_with_matrix ops (x1.matrix.mul gi) with
      | .error e => .error e
      | .ok x2 => .ok x2.matrix

/-- One step of the inner loop of `PointGroup._compute_classes`: skip the
operation itself (`g is op`), otherwise add the conjugate by the element at
index `j` to the class. -/
def inner_step (ops : List SymOp) (i : Nat) (acc : List Mat3) (j : Nat) :
    Except GTErr (List Mat3) :=
  if j = i then .ok acc
  else
    match conj_elem ops (ops.getD j default) (ops.getD i default) with
    | .error e => .error e
    | .ok m => .ok (addElement acc m)

/-- The inner loop of `PointGroup._compute_classes`: add the conjugate of the
operation at index `i` by every other group element to the class `cl`. -/
def inner_conj (ops : List SymOp) (i : Nat) (cl : List Mat3) :
    Except GTErr (List Mat3) :=
  (List.range ops.length).foldlM (inner_step ops i) cl

/-- One iteration of the outer loop of `PointGroup._compute_classes` for the
operation at index `i`: find the classes already containing it; zero matches
seed a fresh class, one match reuses it, and two or more matches raise the
"Conjugacy classes not disjoint" error. -/
def classes_step (ops : List SymOp) (classes : List (List Mat3)) (i : Nat) :
    Except GTErr (List (List Mat3)) :=
  let op := ops.getD i default
  let hits := (List.range classes.length).filter
    (fun k => op.matrix ∈ classes.getD k [])
  match hits with
  | [] =>
    match inner_conj ops i [op.matrix] with
    | .error e => .error e
    | .ok cl => .ok (classes ++ [cl])
  | [k] =>
    match inner_conj ops i (classes.getD k []) with
    | .error e => .error e
    | .ok cl => .ok (classes.set k cl)
  | _ => .error .classesNotDisjoint

/-- `PointGroup._compute_classes`. -/
def compute_classes (ops : List SymOp) : Except GTErr (List (List Mat3)) :=
  (List.range ops.length).foldlM (classes_step ops) []

/-- Modelled from the spec: the kind component of the fixed total order
("priority by kind, then n, then exponent, then an axis-derived key"). -/
def kindPriority : OpKind → Nat
  | .identity => 0
  | .rotation => 1
  | .improperRotation => 2
  | .reflection => 3
  | .inversion => 4

/-- Modelled from the spec: the axis-derived tie-break of the total order,
lexicographic on the coordinates. -/
def vecLE (u v : Vec3) : Bool :=
  decide (u.vx < v.vx ∨ (u.vx = v.vx ∧ (u.vy < v.vy ∨ (u.vy = v.vy ∧ u.vz ≤ v.vz))))

/-- Modelled from the spec: the total order on operations used by every sort
(kind priority, then order n, then exponent, then the axis tie-break). -/
def opLE (a b : SymOp) : Bool :=
  decide (kindPriority a.kind < kindPriority b.kind ∨
    (kindPriority a.kind = kindPriority b.kind ∧
      (a.n < b.n ∨ (a.n = b.n ∧
        (a.exponent < b.exponent ∨
          (a.exponent = b.exponent ∧ vecLE a.axis b.axis = true))))))

/-- Stable insertion for insertion sort: an element goes after every element
already placed that compares less-or-equal to it. -/
def insertLe {α : Type} (le : α → α → Bool) (a : α) : List α → List α
  | [] => [a]
  | b :: rest => if le b a then b :: insertLe le a rest else a :: b :: rest

/-- Stable insertion sort, the model of the stable sorts of the source
(`list.sort` and `sorted`). -/
def sortLe {α : Type} (le : α → α → Bool) : List α → List α
  | [] => []
  | a :: rest => insertLe le a (sortLe le rest)

/-- Lexicographic comparison of matrices, used only to order the class list
deterministically (modelled from the spec: classes are sorted by their
deterministic representative). -/
def matLE (A B : Mat3) : Bool :=
  decide ((A.a11, A.a12, A.a13, A.a21, A.a22, A.a23, A.a31, A.a32, A.a33) ≤
    (B.a11, B.a12, B.a13, B.a21, B.a22, B.a23, B.a31, B.a32, B.a33))

/-- Order on classes by representative (modelled from the spec). -/
def classLE (c1 c2 : List Mat3) : Bool :=
  matLE (c1.headD Mat3.one) (c2.headD Mat3.one)


/-- `itertools.groupby`, on fuel (structural recursion, so that concrete runs
reduce inside the kernel): split a list into maximal runs of equal keys. -/
def groupRunsByAux {α : Type} {κ : Type} [DecidableEq κ] (key : α → κ) :
    Nat → List α → List (List α)
  | 0, _ => []
  | _, [] => []
  | fuel + 1, a :: rest =>
    (a :: rest.takeWhile (fun b => key b == key a)) ::
      groupRunsByAux key fuel (rest.dropWhile (fun b => key b == key a))

/-- `itertools.groupby`: split a list into maximal runs of equal keys. -/
def groupRunsBy {α : Type} {κ : Type} [DecidableEq κ] (key : α → κ) (l : List α) :
    List (List α) :=
  groupRunsByAux key l.length l

instance {ε α : Type} [DecidableEq ε] [DecidableEq α] : DecidableEq (Except ε α) :=
  fun a b =>
    match a, b with
    | .ok x, .ok y =>
      if h : x = y then isTrue (by rw [h])
      else isFalse (fun hc => h (by cases hc; rfl))
    | .error e, .error f =>
      if h : e = f then isTrue (by rw [h])
      else isFalse (fun hc => h (by cases hc; rfl))
    | .ok _, .error _ => isFalse (fun hc => Except.noConfusion hc)
    | .error _, .ok _ => isFalse (fun hc => Except.noConfusion hc)

/-- A string of `k` prime marks (apostrophes). -/
def primeStr (k : Nat) : String :=
  String.mk (List.replicate k (Char.ofNat 39))

/-- The flag-assignment pass at the top of `PointGroup._name_operations`
(source lines 215-232): the principal rotations are the first `(n, exponent)`
group of the sorted rotations; when their order exceeds 2 every reflection
sharing an axis with one of them is flagged as a principal reflection, and
otherwise the first reflection (in the current operation order) sharing the
axis of the first principal rotation is flagged, with an early break. -/
def markFirst (ax : Vec3) : List SymOp → List SymOp
  | [] => []
  | o :: rest =>
    if o.kind == OpKind.reflection && is_same_axis o.axis ax then
      { o with principal_reflection := true } :: rest
    else o :: markFirst ax rest

def assignFlags (ops : List SymOp) : List SymOp :=
  let prots := (groupRunsBy (fun o => (o.n, o.exponent))
      (sortLe opLE (ops.filter (fun o => o.kind == OpKind.rotation)))).headD []
  match prots with
  | [] => ops
  | p0 :: _ =>
    if p0.n > 2 then
      ops.map (fun o =>
        if o.kind == OpKind.reflection &&
            prots.any (fun r => is_same_axis o.axis r.axis) then
          { o with principal_reflection := true }
        else o)
    else markFirst p0.axis ops

/-- The multi-axis labelling loop of `PointGroup._name_operations` (the else
branch of each rotation-order group, source lines 250-273 for rotations and
284-307 for improper rotations): the first `naxes` members (those with
exponent 1) get a coordinate suffix when the axis matches the canonical z
direction, then the `yv` comparison vector, then the canonical x direction,
and a run of prime marks otherwise; later members reference the recorded
label list cyclically, with an explicit exponent suffix.  `yv` is the second
comparison vector, which the rotation branch of the source sets to
`Vector(0,1,1)` and the improper-rotation branch to `Vector(0,1,0)`.  An
empty label list with members left to label is the analogue of the
`labels[i % naxes]` failure at `naxes = 0`. -/
def labelLoop (pfx : String) (yv : Vec3) (order naxes : Nat) :
    Nat → Nat → Bool → List String → List SymOp → Except GTErr (List SymOp)
  | _, _, _, _, [] => .ok []
  | i, pc, hp, labels, rot :: rest =>
    if i < naxes then
      if is_same_axis rot.axis ⟨0, 0, 1⟩ then
        match labelLoop pfx yv order naxes (i + 1) pc true (labels ++ ["(z)"]) rest with
        | .error e => .error e
        | .ok out =>
          .ok ({ rot with name := pfx ++ "_" ++ toString order ++ "(z)" } :: out)
      else if is_same_axis rot.axis yv then
        match labelLoop pfx yv order naxes (i + 1) pc true (labels ++ ["(y)"]) rest with
        | .error e => .error e
        | .ok out =>
          .ok ({ rot with name := pfx ++ "_" ++ toString order ++ "(y)" } :: out)
      else if is_same_axis rot.axis ⟨1, 0, 0⟩ then
        match labelLoop pfx yv order naxes (i + 1) pc true (labels ++ ["(x)"]) rest with
        | .error e => .error e
        | .ok out =>
          .ok ({ rot with name := pfx ++ "_" ++ toString order ++ "(x)" } :: out)
      else
        let lab := primeStr (pc + (if hp then 1 else 0))
        match labelLoop pfx yv order naxes (i + 1) (pc + 1) hp (labels ++ [lab]) rest with
        | .error e => .error e
        | .ok out =>
          .ok ({ rot with name := pfx ++ "_" ++ toString order ++ lab } :: out)
    else
      if naxes = 0 then .error .namingFailed
      else
        match labelLoop pfx yv order naxes (i + 1) pc hp labels rest with
        | .error e => .error e
        | .ok out =>
          let lb := labels.getD (i % naxes) ""
          let nm := pfx ++ "_" ++ toString order ++ lb ++ "^" ++ toString rot.exponent
          .ok ({ rot with name := nm } :: out)

/-- Naming of one rotation-order group (rotations with prefix "C", improper
rotations with prefix "S"): a group holding exactly `n - 1` members is a
single axis labelled plainly, any other group goes through the multi-axis
labelling loop. -/
def nameRotGroup (pfx : String) (yv : Vec3) (rotgrp : List SymOp) :
    Except GTErr (List SymOp) :=
  match rotgrp with
  | [] => .ok []
  | r0 :: rest =>
    if (r0 :: rest).length = r0.n - 1 then
      .ok ({ r0 with name := pfx ++ "_" ++ toString r0.n } ::
        rest.map (fun r =>
          { r with name := pfx ++ "_" ++ toString r0.n ++ "^" ++ toString r.exponent }))
    else
      labelLoop pfx yv r0.n ((r0 :: rest).filter (fun x => x.exponent == 1)).length
        0 0 false [] (r0 :: rest)

def nameRotGroups (pfx : String) (yv : Vec3) :
    List (List SymOp) → Except GTErr (List SymOp)
  | [] => .ok []
  | g :: gs => do
    let a ← nameRotGroup pfx yv g
    let b ← nameRotGroups pfx yv gs
    pure (a ++ b)

/-- Modelled from the spec: the delegated `is_dihedral` predicate of the
external Reflection class — the reflection plane bisects a pair of order-2
rotation axes perpendicular to the principal axis. -/
def is_dihedral (ops : List SymOp) (r : SymOp) : Bool :=
  match sortLe opLE (ops.filter (fun o => o.kind == OpKind.rotation)) with
  | [] => false
  | p :: _ =>
    ops.any (fun r1 => ops.any (fun r2 =>
      r1.kind == OpKind.rotation && r2.kind == OpKind.rotation &&
      r1.n == 2 && r2.n == 2 &&
      is_perpendicular r1.axis p.axis && is_perpendicular r2.axis p.axis &&
      !(is_same_axis r1.axis r2.axis) &&
      (is_same_axis r.axis (Vec3.add r1.axis r2.axis) ||
        is_same_axis r.axis (Vec3.sub r1.axis r2.axis))))

/-- The reflection-naming loop of `PointGroup._name_operations` (source lines
308-330): the subscript is "h" for flagged principal reflections, "d" for
dihedral ones and "v" otherwise; coordinate-plane suffixes for axis-aligned
reflections, and otherwise prime marks counted per subscript, shifted by one
when a coordinate-suffixed reflection was already seen. -/
def nameReflLoop (ops : List SymOp) :
    Nat → Nat → Nat → Bool → List SymOp → List SymOp
  | _, _, _, _, [] => []
  | pv, pd, ph, hp, r :: rest =>
    let sub := if r.principal_reflection then "h"
      else if is_dihedral ops r then "d" else "v"
    if is_same_axis r.axis ⟨0, 0, 1⟩ then
      { r with name := "sigma_" ++ sub ++ "(xy)" } :: nameReflLoop ops pv pd ph true rest
    else if is_same_axis r.axis ⟨0, 1, 0⟩ then
      { r with name := "sigma_" ++ sub ++ "(xz)" } :: nameReflLoop ops pv pd ph true rest
    else if is_same_axis r.axis ⟨1, 0, 0⟩ then
      { r with name := "sigma_" ++ sub ++ "(yz)" } :: nameReflLoop ops pv pd ph true rest
    else
      let pcount := if sub = "h" then ph else if sub = "d" then pd else pv
      let lab := primeStr (pcount + (if hp then 1 else 0))
      let pv2 := if sub = "v" then pv + 1 else pv
      let pd2 := if sub = "d" then pd + 1 else pd
      let ph2 := if sub = "h" then ph + 1 else ph
      { r with name := "sigma_" ++ sub ++ lab } :: nameReflLoop ops pv2 pd2 ph2 hp rest

/-- Assign `nm` to the first operation of kind `k` (the identity gets "E",
the inversion, when present, gets "i"). -/
def setNameFirstKind (k : OpKind) (nm : String) : List SymOp → List SymOp
  | [] => []
  | o :: rest =>
    if o.kind == k then { o with name := nm } :: rest
    else o :: setNameFirstKind k nm rest

/-- Weave a renamed sublist back into the operation list: operations
satisfying `p` are replaced, in order, by the elements of `news`. -/
def replaceKind (p : SymOp → Bool) : List SymOp → List SymOp → List SymOp
  | _, [] => []
  | news, o :: rest =>
    if p o then
      match news with
      | n1 :: ns => n1 :: replaceKind p ns rest
      | [] => o :: replaceKind p [] rest
    else o :: replaceKind p news rest

/-- `PointGroup._name_operations`: flag the principal reflections, sort the
operations into the fixed total order, name the identity and the inversion,
then the rotation groups (comparison vector `Vector(0,1,1)` in the y branch,
as in the source), the improper-rotation groups (comparison vector
`Vector(0,1,0)`), and the reflections. -/
def name_operations (ops : List SymOp) : Except GTErr (List SymOp) :=
  let flagged := assignFlags ops
  let sorted := sortLe opLE flagged
  match identity_element sorted with
  | .error e => .error e
  | .ok _ =>
    let ops1 := setNameFirstKind OpKind.identity "E" sorted
    let ops2 := setNameFirstKind OpKind.inversion "i" ops1
    match nameRotGroups "C" ⟨0, 1, 1⟩ (groupRunsBy (fun o => o.n)
        (ops2.filter (fun o => o.kind == OpKind.rotation))) with
    | .error e => .error e
    | .ok rotsN =>
      let ops3 := replaceKind (fun o => o.kind == OpKind.rotation) rotsN ops2
      match nameRotGroups "S" ⟨0, 1, 0⟩ (groupRunsBy (fun o => o.n)
          (ops3.filter (fun o => o.kind == OpKind.improperRotation))) with
      | .error e => .error e
      | .ok impsN =>
        let ops4 := replaceKind (fun o => o.kind == OpKind.improperRotation) impsN ops3
        let reflsN := nameReflLoop ops4 0 0 0 false
          (ops4.filter (fun o => o.kind == OpKind.reflection))
        .ok (replaceKind (fun o => o.kind == OpKind.reflection) reflsN ops4)

/-- `PointGroup.num_C_n_axes`. -/
def num_C_n_axes (ops : List SymOp) (n : Nat) : Nat :=
  (ops.filter (fun o =>
    o.kind == OpKind.rotation && o.n == n && o.exponent == 1)).length

/-- `PointGroup._get_name`: the Schoenflies decision tree (source lines
335-418). -/
def get_name (ops : List SymOp) : Except GTErr String :=
  let rots := ops.filter (fun o => o.kind == OpKind.rotation)
  let refls := ops.filter (fun o => o.kind == OpKind.reflection)
  let imps := ops.filter (fun o => o.kind == OpKind.improperRotation)
  let hasInv := ops.any (fun o => o.kind == OpKind.inversion)
  if (rots.filter (fun r => 2 < r.n && r.exponent == 1)).length ≥ 2 then
    if num_C_n_axes ops 5 = 12 then
      .ok (if hasInv then "I_h" else "I")
    else if num_C_n_axes ops 4 = 6 then
      .ok (if hasInv then "O_h" else "O")
    else if num_C_n_axes ops 3 = 4 then
      if hasInv then .ok "T_h"
      else if refls.length = 6 then .ok "T_d"
      else .ok "T"
    else .error .unclassifiableGroup
  else if 0 < rots.length then
    let hd := rots.headD default
    let cnt := (rots.filter (fun r =>
      r.n == 2 && is_perpendicular hd.axis r.axis)).length
    if cnt = hd.n then
      if refls.any (fun r => r.principal_reflection) then
        .ok ("D_" ++ toString hd.n ++ "h")
      else if refls.length = hd.n then
        .ok ("D_" ++ toString hd.n ++ "d")
      else if refls.length = 0 then
        .ok ("D_" ++ toString hd.n)
      else .error .unclassifiableGroup
    else
      if refls.any (fun r => r.principal_reflection) then
        .ok ("C_" ++ toString hd.n ++ "h")
      else if refls.length = hd.n then
        .ok ("C_" ++ toString hd.n ++ "v")
      else if imps.any (fun s => s.n == 2 * hd.n) then
        .ok ("S_" ++ toString (2 * hd.n))
      else .ok ("C_" ++ toString hd.n)
  else
    if refls.length = 1 then .ok "C_s"
    else if hasInv then .ok "C_i"
    else if ops.length = 1 then .ok "C_1"
    else .error .unclassifiableGroup

/-- The constructed aggregate: the ordered operations, the conjugacy classes
(as member-matrix lists), and the Schoenflies name. -/
structure PointGroup where
  operations : List SymOp
  classes : List (List Mat3)
  name : String
deriving DecidableEq

/-- `PointGroup.__init__`: run the four steps in order — closure check,
conjugacy classes, operation naming (which also sorts the class list), and
the Schoenflies classification. -/
def constructPG (ops : List SymOp) : Except GTErr PointGroup :=
  match check_closure ops with
  | .error e => .error e
  | .ok ops1 =>
    match compute_classes ops1 with
    | .error e => .error e
    | .ok cls =>
      match name_operations ops1 with
      | .error e => .error e
      | .ok ops2 =>
        let cls2 := sortLe classLE cls
        match get_name ops2 with
        | .error e => .error e
        | .ok nm => .ok ⟨ops2, cls2, nm⟩

/-! ### Concrete operation sets used to exercise the pipeline -/

/-- Build an operation with fresh mutable slots, as the upstream
symmetry-element detection supplies them. -/
def mkOp (k : OpKind) (n e : Nat) (ax : Vec3) (m : Mat3) : SymOp :=
  ⟨k, n, e, ax, m, "", none, false⟩

/-- Diagonal matrix. -/
def dg (x y z : ℤ) : Mat3 := ⟨x, 0, 0, 0, y, 0, 0, 0, z⟩

def opE : SymOp := mkOp .identity 1 1 ⟨0, 0, 1⟩ Mat3.one
def opC2z : SymOp := mkOp .rotation 2 1 ⟨0, 0, 1⟩ (dg (-1) (-1) 1)
def opC2y : SymOp := mkOp .rotation 2 1 ⟨0, 1, 0⟩ (dg (-1) 1 (-1))
def opC2x : SymOp := mkOp .rotation 2 1 ⟨1, 0, 0⟩ (dg 1 (-1) (-1))
def opSxz : SymOp := mkOp .reflection 1 1 ⟨0, 1, 0⟩ (dg 1 (-1) 1)
def opSyz : SymOp := mkOp .reflection 1 1 ⟨1, 0, 0⟩ (dg (-1) 1 1)
def opInv : SymOp := mkOp .inversion 1 1 ⟨0, 0, 1⟩ (dg (-1) (-1) (-1))

/-- The C2v fixture `{E, C2(z), sigma(xz), sigma(yz)}`. -/
def c2vOps : List SymOp := [opE, opC2z, opSxz, opSyz]

/-- A C2h group oriented along the x axis: `{E, C2(x), sigma(yz), i}`; its
reflection plane's normal is the rotation axis (1,0,0), not the canonical z
axis. -/
def c2hxOps : List SymOp := [opE, opC2x, opSyz, opInv]

/-- The standard D2 group `{E, C2(z), C2(y), C2(x)}`. -/
def d2Ops : List SymOp := [opE, opC2z, opC2y, opC2x]

/-- A D2 group with two-fold axes along (0,1,1), (0,1,-1) and (1,0,0). -/
def opC2d1 : SymOp := mkOp .rotation 2 1 ⟨0, 1, 1⟩ ⟨-1, 0, 0, 0, 0, 1, 0, 1, 0⟩
def opC2d2 : SymOp := mkOp .rotation 2 1 ⟨0, 1, -1⟩ ⟨-1, 0, 0, 0, 0, -1, 0, -1, 0⟩
def d2dOps : List SymOp := [opE, opC2d1, opC2d2, opC2x]

/-- A cyclic C6 group: the abstract rotation group of orders 6, 3, 2 about a
single axis, realised by integer matrices (the rotations expressed in a
skewed molecular frame; the metadata (n, exponent, axis) is that of a C6
molecular group). -/
def mC6a : Mat3 := ⟨1, -1, 0, 1, 0, 0, 0, 0, 1⟩
def mC3a : Mat3 := ⟨0, -1, 0, 1, -1, 0, 0, 0, 1⟩
def mC2c : Mat3 := ⟨-1, 0, 0, 0, -1, 0, 0, 0, 1⟩
def mC3b : Mat3 := ⟨-1, 1, 0, -1, 0, 0, 0, 0, 1⟩
def mC6b : Mat3 := ⟨0, 1, 0, -1, 1, 0, 0, 0, 1⟩
def opC6a : SymOp := mkOp .rotation 6 1 ⟨0, 0, 1⟩ mC6a
def opC6b : SymOp := mkOp .rotation 6 5 ⟨0, 0, 1⟩ mC6b
def opC3a : SymOp := mkOp .rotation 3 1 ⟨0, 0, 1⟩ mC3a
def opC3b : SymOp := mkOp .rotation 3 2 ⟨0, 0, 1⟩ mC3b
def opC2c : SymOp := mkOp .rotation 2 1 ⟨0, 0, 1⟩ mC2c
def c6Ops : List SymOp := [opE, opC6a, opC6b, opC3a, opC3b, opC2c]

/-- Two S4 improper rotations on different axes (with the identity), used to
drive the multi-axis improper-rotation naming branch. -/
def opS4x : SymOp := mkOp .improperRotation 4 1 ⟨1, 0, 0⟩ ⟨-1, 0, 0, 0, 0, -1, 0, 1, 0⟩
def opS4y : SymOp := mkOp .improperRotation 4 1 ⟨0, 1, 0⟩ ⟨0, 0, 1, 0, -1, 0, -1, 0, 0⟩
def s4Ops : List SymOp := [opE, opS4x, opS4y]

/-- The number of distinct exponent-1 rotation axes of order above 2 (the
quantity the spec's polyhedral gate is stated over). -/
def distinctHighOrderAxes (ops : List SymOp) : Nat :=
  ((ops.filter (fun o => o.kind == OpKind.rotation && 2 < o.n &&
    o.exponent == 1)).map (fun o => o.axis)).dedup.length

/-! ### Invariant and projection definitions used by the proofs -/

/-- The matrices of an operation list. -/
def matsOf (ops : List SymOp) : List Mat3 := ops.map (fun o => o.matrix)

/-- The identity element exists and its matrix is the identity matrix.  The
second half is modelled from the spec: the external IdentityOperation carries
the identity matrix. -/
def idOne (ops : List SymOp) : Prop :=
  ∃ e, identity_element ops = .ok e ∧ e.matrix = Mat3.one

/-- The "immutable part" of an operation with the inverse slot cleared, used
to state that a pass only writes inverse slots. -/
def coreOf (o : SymOp) : SymOp := { o with inverse := none }

/-- The closure-pass invariant relative to the initial operations `ops0`:
only inverse slots have been written, and every written slot holds a matrix
of the group that is a right inverse of its operation's matrix. -/
def slotInv (ops0 s : List SymOp) : Prop :=
  s.map coreOf = ops0.map coreOf ∧
  ∀ o ∈ s, ∀ m, o.inverse = some m →
    o.matrix.mul m = Mat3.one ∧ m ∈ matsOf ops0

/-- The group-like facts holding for the matrix set after a successful
closure pass: closure under products, the identity matrix present, and a left
inverse for every member (the latter is the modelled invertibility of actual
symmetry-operation matrices). -/
structure GoodSet (S : List Mat3) : Prop where
  closed : ∀ m1 ∈ S, ∀ m2 ∈ S, m1.mul m2 ∈ S
  one_mem : Mat3.one ∈ S
  inv_ex : ∀ m ∈ S, ∃ b : Mat3, b.mul m = Mat3.one

/-- Conjugacy inside the matrix set: `x = g m g⁻¹` for some `g` of the set. -/
def conjRel (S : List Mat3) (m x : Mat3) : Prop :=
  ∃ g gi, g ∈ S ∧ g.mul gi = Mat3.one ∧ x = (g.mul m).mul gi

/-- A class list that is exactly one conjugacy orbit (as a set). -/
def isOrbit (S : List Mat3) (cl : List Mat3) : Prop :=
  ∃ s ∈ S, ∀ x, x ∈ cl ↔ conjRel S s x

/-- Disjointness of two classes. -/
def disjCl (c1 c2 : List Mat3) : Prop := ∀ x, x ∈ c1 → x ∉ c2

/-- The running invariant of the outer class loop: every class built so far
is a full conjugacy orbit, and the classes are pairwise disjoint. -/
def classesOk (S : List Mat3) (classes : List (List Mat3)) : Prop :=
  (∀ cl ∈ classes, isOrbit S cl) ∧ List.Pairwise disjCl classes

/-- A projection blind to the fields written by the naming pass. -/
def nameBlind {β : Type} (f : SymOp → β) : Prop :=
  (∀ o nm, f { o with name := nm } = f o) ∧
  (∀ o, f { o with principal_reflection := true } = f o)

/-- The immutable identity of an operation (everything except the
construction-written name, inverse and flag slots). -/
def immutOf (o : SymOp) : OpKind × Nat × Nat × Vec3 × Mat3 :=
  (o.kind, o.n, o.exponent, o.axis, o.matrix)

/-- The matrix/inverse-slot view of an operation. -/
def slotOf (o : SymOp) : Mat3 × Option Mat3 :=
  (o.matrix, o.inverse)

/-- The group the constructor builds from the identity generator alone, used
as a concrete input below. -/
def pgE : PointGroup := (constructPG [opE]).toOption.getD ⟨[], [], ""⟩

/-- The group the constructor builds from the C2v generator list, used as a
concrete input below. -/
def pgC2v : PointGroup := (constructPG c2vOps).toOption.getD ⟨[], [], ""⟩

/-! ### Matrix algebra, transported through the Mathlib interpretation -/

namespace Mat3

theorem toM_mul (A B : Mat3) : (A.mul B).toM = A.toM * B.toM := by
  ext i j
  fin_cases i <;> fin_cases j <;>
    simp [toM, mul, Matrix.mul_apply, Fin.sum_univ_three]

theorem toM_one : (one).toM = (1 : Matrix (Fin 3) (Fin 3) ℤ) := by
  ext i j
  fin_cases i <;> fin_cases j <;>
    simp [toM, one, Matrix.one_apply, Matrix.vecHead, Matrix.vecTail]

theorem toM_injective : Function.Injective toM := by
  intro A B h
  cases A; cases B
  have h11 := congrFun (congrFun h 0) 0
  have h12 := congrFun (congrFun h 0) 1
  have h13 := congrFun (congrFun h 0) 2
  have h21 := congrFun (congrFun h 1) 0
  have h22 := congrFun (congrFun h 1) 1
  have h23 := congrFun (congrFun h 1) 2
  have h31 := congrFun (congrFun h 2) 0
  have h32 := congrFun (congrFun h 2) 1
  have h33 := congrFun (congrFun h 2) 2
  simp [toM] at h11 h12 h13 h21 h22 h23 h31 h32 h33
  simp_all

theorem mul_assoc3 (A B C : Mat3) : (A.mul B).mul C = A.mul (B.mul C) := by
  apply toM_injective
  rw [toM_mul, toM_mul, toM_mul, toM_mul, mul_assoc]

theorem one_mul3 (A : Mat3) : (one).mul A = A := by
  apply toM_injective
  rw [toM_mul, toM_one, one_mul]

theorem mul_one3 (A : Mat3) : A.mul one = A := by
  apply toM_injective
  rw [toM_mul, toM_one, mul_one]

theorem mul_eq_one_comm3 {A B : Mat3} (h : A.mul B = one) : B.mul A = one := by
  apply toM_injective
  have h2 : A.toM * B.toM = 1 := by
    have := congrArg toM h
    rwa [toM_mul, toM_one] at this
  rw [toM_mul, toM_one]
  exact Matrix.mul_eq_one_comm.mp h2

/-- A right inverse is unique. -/
theorem right_inv_unique {A B C : Mat3} (h1 : A.mul B = one) (h2 : A.mul C = one) :
    B = C := by
  have hBA : B.mul A = one := mul_eq_one_comm3 h1
  calc B = B.mul one := (mul_one3 B).symm
    _ = B.mul (A.mul C) := by rw [h2]
    _ = (B.mul A).mul C := (mul_assoc3 B A C).symm
    _ = C := by rw [hBA, one_mul3]

/-- A left inverse is unique. -/
theorem left_inv_unique {A B C : Mat3} (h1 : B.mul A = one) (h2 : C.mul A = one) :
    B = C := by
  exact right_inv_unique (mul_eq_one_comm3 h1) (mul_eq_one_comm3 h2)

end Mat3

theorem length_dropWhile_le {α : Type} (p : α → Bool) (l : List α) :
    (l.dropWhile p).length ≤ l.length := by
  induction l with
  | nil => simp [List.dropWhile]
  | cons a rest ih =>
    simp only [List.dropWhile]
    cases p a
    · simp
    · simpa using Nat.le_succ_of_le ih

/-! ### Generic lemmas about folds in the `Except` monad and lists -/

theorem except_bind_ok {ε α β : Type} (x : α) (f : α → Except ε β) :
    (Except.ok x >>= f) = f x := rfl

theorem except_bind_error {ε α β : Type} (e : ε) (f : α → Except ε β) :
    ((Except.error e : Except ε α) >>= f) = .error e := rfl

theorem exfold_nil {σ α ε : Type} (f : σ → α → Except ε σ) (s : σ) :
    List.foldlM f s [] = .ok s := rfl

theorem exfold_cons {σ α ε : Type} (f : σ → α → Except ε σ) (s : σ) (a : α)
    (l : List α) :
    List.foldlM f s (a :: l) =
      match f s a with
      | .error e => .error e
      | .ok s2 => List.foldlM f s2 l := by
  rw [List.foldlM_cons]
  cases f s a with
  | error e => exact except_bind_error e _
  | ok s2 => exact except_bind_ok s2 _

theorem exfold_ok_invariant {σ α ε : Type} (f : σ → α → Except ε σ) (P : σ → Prop) :
    ∀ (l : List α) (s t : σ), List.foldlM f s l = .ok t → P s →
      (∀ s2 x s3, x ∈ l → P s2 → f s2 x = .ok s3 → P s3) → P t := by
  intro l
  induction l with
  | nil =>
    intro s t h hP _
    rw [exfold_nil] at h
    cases h
    exact hP
  | cons a rest ih =>
    intro s t h hP hpres
    rw [exfold_cons] at h
    cases hfa : f s a with
    | error e => rw [hfa] at h; exact absurd h (by simp)
    | ok s2 =>
      rw [hfa] at h
      exact ih s2 t h (hpres s a s2 (by simp) hP hfa)
        (fun s3 x s4 hx => hpres s3 x s4 (by simp [hx]))

theorem exfold_ok_processed {σ α ε : Type} (f : σ → α → Except ε σ) (P : σ → Prop) :
    ∀ (l : List α) (s t : σ), List.foldlM f s l = .ok t → P s →
      (∀ s2 x s3, x ∈ l → P s2 → f s2 x = .ok s3 → P s3) →
      ∀ x ∈ l, ∃ s1 s2, P s1 ∧ f s1 x = .ok s2 := by
  intro l
  induction l with
  | nil => intro s t _ _ _ x hx; exact absurd hx (by simp)
  | cons a rest ih =>
    intro s t h hP hpres x hx
    rw [exfold_cons] at h
    cases hfa : f s a with
    | error e => rw [hfa] at h; exact absurd h (by simp)
    | ok s2 =>
      rw [hfa] at h
      rcases List.mem_cons.mp hx with rfl | hx2
      · exact ⟨s, s2, hP, hfa⟩
      · exact ih s2 t h (hpres s a s2 (by simp) hP hfa)
          (fun s3 y s4 hy => hpres s3 y s4 (by simp [hy])) x hx2

theorem exfold_error_of_bad {σ α ε : Type} (f : σ → α → Except ε σ) (P : σ → Prop)
    (Q : ε → Prop) :
    ∀ (l : List α) (s : σ), P s →
      (∀ s2 x, P s2 → x ∈ l →
        (∃ e, f s2 x = .error e ∧ Q e) ∨ (∃ s3, f s2 x = .ok s3 ∧ P s3)) →
      (∃ x ∈ l, ∀ s2, P s2 → ∃ e, f s2 x = .error e ∧ Q e) →
      ∃ e, List.foldlM f s l = .error e ∧ Q e := by
  intro l
  induction l with
  | nil =>
    intro s _ _ hbad
    rcases hbad with ⟨x, hx, _⟩
    exact absurd hx (by simp)
  | cons a rest ih =>
    intro s hP hstep hbad
    rcases hbad with ⟨x, hx, hxbad⟩
    rcases List.mem_cons.mp hx with rfl | hx2
    · rcases hxbad s hP with ⟨e, he, hQ⟩
      refine ⟨e, ?_, hQ⟩
      rw [exfold_cons, he]
    · rcases hstep s a hP (by simp) with ⟨e, he, hQ⟩ | ⟨s2, hs2, hP2⟩
      · refine ⟨e, ?_, hQ⟩
        rw [exfold_cons, he]
      · have := ih s2 hP2
          (fun s3 y hP3 hy => hstep s3 y hP3 (by simp [hy]))
          ⟨x, hx2, hxbad⟩
        rcases this with ⟨e, he, hQ⟩
        refine ⟨e, ?_, hQ⟩
        rw [exfold_cons, hs2]
        exact he

theorem exfold_split {σ α ε : Type} (f : σ → α → Except ε σ) :
    ∀ (l1 : List α) (x : α) (l2 : List α) (s t : σ),
      List.foldlM f s (l1 ++ x :: l2) = .ok t →
      ∃ s1 s2, List.foldlM f s l1 = .ok s1 ∧ f s1 x = .ok s2 ∧
        List.foldlM f s2 l2 = .ok t := by
  intro l1
  induction l1 with
  | nil =>
    intro x l2 s t h
    rw [List.nil_append, exfold_cons] at h
    cases hfx : f s x with
    | error e => rw [hfx] at h; exact absurd h (by simp)
    | ok s2 =>
      rw [hfx] at h
      exact ⟨s, s2, rfl, hfx, h⟩
  | cons a rest ih =>
    intro x l2 s t h
    rw [List.cons_append, exfold_cons] at h
    cases hfa : f s a with
    | error e => rw [hfa] at h; exact absurd h (by simp)
    | ok s2 =>
      rw [hfa] at h
      rcases ih x l2 s2 t h with ⟨s3, s4, h1, h2, h3⟩
      refine ⟨s3, s4, ?_, h2, h3⟩
      rw [exfold_cons, hfa]
      exact h1

theorem getD_map {α β : Type} (g : α → β) :
    ∀ (l : List α) (i : Nat) (d : α),
      (l.map g).getD i (g d) = g (l.getD i d) := by
  intro l
  induction l with
  | nil => intro i d; simp
  | cons a rest ih =>
    intro i d
    cases i with
    | zero => simp
    | succ k => simp [ih k d]

theorem mem_pairList {n : Nat} {ij : Nat × Nat} :
    ij ∈ pairList n ↔ ij.1 < n ∧ ij.2 < n := by
  cases ij with
  | mk i j =>
    simp [pairList, List.mem_flatMap, List.mem_map, List.mem_range]

theorem insertLe_perm {α : Type} (le : α → α → Bool) (a : α) :
    ∀ l : List α, List.Perm (insertLe le a l) (a :: l) := by
  intro l
  induction l with
  | nil => simp [insertLe]
  | cons b rest ih =>
    simp only [insertLe]
    by_cases h : le b a = true
    · rw [if_pos h]
      exact (List.Perm.cons b ih).trans (List.Perm.swap a b rest)
    · rw [if_neg h]

theorem sortLe_perm {α : Type} (le : α → α → Bool) :
    ∀ l : List α, List.Perm (sortLe le l) l := by
  intro l
  induction l with
  | nil => simp [sortLe]
  | cons a rest ih =>
    simp only [sortLe]
    exact (insertLe_perm le a (sortLe le rest)).trans (List.Perm.cons a ih)

/-! ### Lookup and identity lemmas -/


theorem mem_matsOf {ops : List SymOp} {m : Mat3} :
    m ∈ matsOf ops ↔ ∃ o ∈ ops, o.matrix = m := by
  simp [matsOf]

theorem is_same_matrix_iff {A B : Mat3} : is_same_matrix A B = true ↔ A = B := by
  simp [is_same_matrix]

theorem ewm_ok_spec {ops : List SymOp} {m : Mat3} {p : SymOp}
    (h : element_with_matrix ops m = .ok p) : p ∈ ops ∧ p.matrix = m := by
  unfold element_with_matrix at h
  cases hf : ops.find? (fun o => is_same_matrix o.matrix m) with
  | none => rw [hf] at h; exact absurd h (by simp)
  | some o =>
    rw [hf] at h
    cases h
    have hp := List.find?_some hf
    exact ⟨List.mem_of_find?_eq_some hf, is_same_matrix_iff.mp hp⟩

theorem ewm_ok_of_mem {ops : List SymOp} {m : Mat3} (hm : m ∈ matsOf ops) :
    ∃ p, element_with_matrix ops m = .ok p ∧ p.matrix = m := by
  unfold element_with_matrix
  cases hf : ops.find? (fun o => is_same_matrix o.matrix m) with
  | none =>
    rcases mem_matsOf.mp hm with ⟨o, ho, hom⟩
    have := List.find?_eq_none.mp hf o ho
    rw [is_same_matrix_iff] at this
    exact absurd hom (by simpa using this)
  | some o =>
    have hp := List.find?_some hf
    exact ⟨o, rfl, is_same_matrix_iff.mp hp⟩

theorem ewm_error_spec {ops : List SymOp} {m : Mat3} (hm : m ∉ matsOf ops) :
    element_with_matrix ops m = .error (.groupNotClosed m) := by
  unfold element_with_matrix
  cases hf : ops.find? (fun o => is_same_matrix o.matrix m) with
  | none => rfl
  | some o =>
    have hp := List.find?_some hf
    have h1 := is_same_matrix_iff.mp hp
    have h2 := List.mem_of_find?_eq_some hf
    exact absurd (mem_matsOf.mpr ⟨o, h2, h1⟩) hm


theorem coreOf_matrix (o : SymOp) : (coreOf o).matrix = o.matrix := rfl

theorem coreOf_kind (o : SymOp) : (coreOf o).kind = o.kind := rfl

theorem core_matsOf {s t : List SymOp} (h : s.map coreOf = t.map coreOf) :
    matsOf s = matsOf t := by
  have hs : matsOf s = (s.map coreOf).map (fun o => o.matrix) := by
    simp only [matsOf, List.map_map]
    rfl
  have ht : matsOf t = (t.map coreOf).map (fun o => o.matrix) := by
    simp only [matsOf, List.map_map]
    rfl
  rw [hs, ht, h]

theorem core_length {s t : List SymOp} (h : s.map coreOf = t.map coreOf) :
    s.length = t.length := by
  have := congrArg List.length h
  simpa using this

theorem idOne_core {s t : List SymOp} (h : s.map coreOf = t.map coreOf)
    (hid : idOne t) : idOne s := by
  induction s generalizing t with
  | nil =>
    cases t with
    | nil =>
      rcases hid with ⟨e, he, _⟩
      exact absurd he (by simp [identity_element])
    | cons b t2 => exact absurd h (by simp)
  | cons a s2 ih =>
    cases t with
    | nil => exact absurd h (by simp)
    | cons b t2 =>
      simp only [List.map_cons, List.cons.injEq] at h
      rcases h with ⟨hab, hrest⟩
      have hk : a.kind = b.kind := by
        have := congrArg SymOp.kind hab
        simpa [coreOf] using this
      have hm : a.matrix = b.matrix := by
        have := congrArg SymOp.matrix hab
        simpa [coreOf] using this
      rcases hid with ⟨e, he, hem⟩
      unfold identity_element at he
      by_cases hbk : b.kind = OpKind.identity
      · rw [List.find?_cons_of_pos _ (by simp [hbk])] at he
        cases he
        refine ⟨a, ?_, by rw [hm]; exact hem⟩
        unfold identity_element
        rw [List.find?_cons_of_pos _ (by simp [hk, hbk])]
      · rw [List.find?_cons_of_neg _ (by simp [hbk])] at he
        rcases ih hrest ⟨e, by unfold identity_element; rw [he], hem⟩
          with ⟨e2, he2, he2m⟩
        refine ⟨e2, ?_, he2m⟩
        unfold identity_element
        rw [List.find?_cons_of_neg _ (by simp [hk, hbk])]
        unfold identity_element at he2
        exact he2

theorem getD_core_matrix {s t : List SymOp} (h : s.map coreOf = t.map coreOf)
    (i : Nat) : (s.getD i default).matrix = (t.getD i default).matrix := by
  have hs : (s.getD i default).matrix = ((s.map coreOf).getD i (coreOf default)).matrix := by
    rw [getD_map coreOf s i default, coreOf_matrix]
  have ht : (t.getD i default).matrix = ((t.map coreOf).getD i (coreOf default)).matrix := by
    rw [getD_map coreOf t i default, coreOf_matrix]
  rw [hs, ht, h]

/-! ### Lemmas about `setInverse` -/

theorem setInverse_map_coreOf :
    ∀ (s : List SymOp) (i : Nat) (m : Mat3),
      (setInverse s i m).map coreOf = s.map coreOf := by
  intro s
  induction s with
  | nil => intro i m; rfl
  | cons a rest ih =>
    intro i m
    cases i with
    | zero => simp [setInverse, coreOf]
    | succ k =>
      have hih := ih k m
      cases hr : rest[k]? with
      | none => simp [setInverse, hr]
      | some o =>
        simp only [setInverse, hr, List.getElem?_cons_succ, List.set_cons_succ,
          List.map_cons]
        simp only [setInverse, hr] at hih
        rw [hih]

theorem setInverse_length (s : List SymOp) (i : Nat) (m : Mat3) :
    (setInverse s i m).length = s.length := by
  unfold setInverse
  cases s[i]? with
  | none => rfl
  | some o => simp

theorem setInverse_getD_same :
    ∀ (s : List SymOp) (i : Nat) (m : Mat3), i < s.length →
      (setInverse s i m).getD i default =
        { s.getD i default with inverse := some m } := by
  intro s
  induction s with
  | nil => intro i m h; exact absurd h (by simp)
  | cons a rest ih =>
    intro i m h
    cases i with
    | zero => simp [setInverse]
    | succ k =>
      have hk : k < rest.length := by simpa using h
      have hih := ih k m hk
      cases hr : rest[k]? with
      | none =>
        have := List.getElem?_eq_none_iff.mp hr
        omega
      | some o =>
        simp only [setInverse, hr, List.getElem?_cons_succ, List.set_cons_succ,
          List.getD_cons_succ]
        simp only [setInverse, hr] at hih
        exact hih

theorem setInverse_getD_other :
    ∀ (s : List SymOp) (i : Nat) (m : Mat3) (k : Nat), k ≠ i →
      (setInverse s i m).getD k default = s.getD k default := by
  intro s
  induction s with
  | nil => intro i m k _; simp [setInverse]
  | cons a rest ih =>
    intro i m k hk
    cases i with
    | zero =>
      cases k with
      | zero => exact absurd rfl hk
      | succ k2 => simp [setInverse]
    | succ i2 =>
      cases hr : rest[i2]? with
      | none => simp [setInverse, hr]
      | some o =>
        cases k with
        | zero => simp [setInverse, hr]
        | succ k2 =>
          have hih := ih i2 m k2 (fun hc => hk (by rw [hc]))
          simp only [setInverse, hr, List.getElem?_cons_succ, List.set_cons_succ,
            List.getD_cons_succ]
          simp only [setInverse, hr] at hih
          exact hih

theorem mem_setInverse :
    ∀ (s : List SymOp) (i : Nat) (m : Mat3) (o2 : SymOp),
      o2 ∈ setInverse s i m →
      o2 ∈ s ∨ (i < s.length ∧
        o2 = { s.getD i default with inverse := some m }) := by
  intro s
  induction s with
  | nil => intro i m o2 h; simp [setInverse] at h
  | cons a rest ih =>
    intro i m o2 h
    cases i with
    | zero =>
      simp only [setInverse, List.getElem?_cons_zero, List.set_cons_zero] at h
      rcases List.mem_cons.mp h with rfl | h2
      · right
        exact ⟨by simp, by simp⟩
      · left
        exact List.mem_cons_of_mem a h2
    | succ k =>
      cases hr : rest[k]? with
      | none =>
        simp only [setInverse, hr, List.getElem?_cons_succ] at h
        left
        exact h
      | some o =>
        simp only [setInverse, hr, List.getElem?_cons_succ, List.set_cons_succ] at h
        rcases List.mem_cons.mp h with rfl | h2
        · left
          simp
        · have hih := ih k m o2 (by simp only [setInverse, hr]; exact h2)
          rcases hih with h3 | ⟨h3, h4⟩
          · left
            exact List.mem_cons_of_mem a h3
          · right
            exact ⟨by simpa using Nat.succ_lt_succ h3, by simpa using h4⟩

theorem getD_mem {α : Type} (d : α) :
    ∀ (l : List α) (i : Nat), i < l.length → l.getD i d ∈ l := by
  intro l
  induction l with
  | nil => intro i h; exact absurd h (by simp)
  | cons a rest ih =>
    intro i h
    cases i with
    | zero => simp
    | succ k =>
      have := ih k (by simpa using h)
      simp only [List.getD_cons_succ]
      exact List.mem_cons_of_mem a this

/-! ### The closure pass -/


/-- The raw computation of one closure step once both lookups resolve. -/
theorem closure_step_eq (s : List SymOp) (ij : Nat × Nat) {p e : SymOp}
    (hpok : element_with_matrix s
      ((s.getD ij.1 default).matrix.mul (s.getD ij.2 default).matrix) = .ok p)
    (heok : identity_element s = .ok e) :
    closure_step s ij =
      (if is_same_matrix p.matrix e.matrix then
        (if ((s.getD ij.1 default).inverse.isSome &&
              (s.getD ij.1 default).inverse != some (s.getD ij.2 default).matrix) ||
            ((s.getD ij.2 default).inverse.isSome &&
              (s.getD ij.2 default).inverse != some (s.getD ij.1 default).matrix) then
          .error .nonUniqueInverse
        else
          .ok (setInverse (setInverse s ij.1 (s.getD ij.2 default).matrix) ij.2
            (s.getD ij.1 default).matrix))
      else .ok s) := by
  unfold closure_step op_mul
  dsimp only
  rw [hpok, heok]

theorem closure_step_err_eq (s : List SymOp) (ij : Nat × Nat)
    (hbad : (s.getD ij.1 default).matrix.mul (s.getD ij.2 default).matrix ∉ matsOf s) :
    closure_step s ij = .error (.groupNotClosed
      ((s.getD ij.1 default).matrix.mul (s.getD ij.2 default).matrix)) := by
  unfold closure_step op_mul
  dsimp only
  rw [ewm_error_spec hbad]

/-- In a state whose inverse slots are all correct, the conflict test of the
inverse-linking branch cannot fire when the product is the identity. -/
theorem no_conflict {ops0 s : List SymOp} {ij : Nat × Nat}
    (hP : slotInv ops0 s) (hi : ij.1 < s.length) (hj : ij.2 < s.length)
    (hprod1 : (s.getD ij.1 default).matrix.mul (s.getD ij.2 default).matrix = Mat3.one) :
    (((s.getD ij.1 default).inverse.isSome &&
        (s.getD ij.1 default).inverse != some (s.getD ij.2 default).matrix) ||
      ((s.getD ij.2 default).inverse.isSome &&
        (s.getD ij.2 default).inverse != some (s.getD ij.1 default).matrix)) = false := by
  obtain ⟨hcore, hslots⟩ := hP
  have hamem : s.getD ij.1 default ∈ s := getD_mem default s ij.1 hi
  have hbmem : s.getD ij.2 default ∈ s := getD_mem default s ij.2 hj
  simp only [Bool.or_eq_false_iff, Bool.and_eq_false_iff]
  constructor
  · cases hai : (s.getD ij.1 default).inverse with
    | none => left; simp
    | some m =>
      right
      have hm := hslots _ hamem m hai
      have : m = (s.getD ij.2 default).matrix :=
        Mat3.right_inv_unique hm.1 hprod1
      simp [this]
  · cases hbi : (s.getD ij.2 default).inverse with
    | none => left; simp
    | some m =>
      right
      have hm := hslots _ hbmem m hbi
      have hcomm : (s.getD ij.2 default).matrix.mul (s.getD ij.1 default).matrix =
          Mat3.one := Mat3.mul_eq_one_comm3 hprod1
      have : m = (s.getD ij.1 default).matrix :=
        Mat3.right_inv_unique hm.1 hcomm
      simp [this]

theorem closure_step_spec (ops0 : List SymOp) (hid : idOne ops0)
    (s : List SymOp) (ij : Nat × Nat) (hP : slotInv ops0 s)
    (hi : ij.1 < s.length) (hj : ij.2 < s.length) :
    (closure_step s ij = .error (.groupNotClosed
        ((s.getD ij.1 default).matrix.mul (s.getD ij.2 default).matrix)) ∧
      (s.getD ij.1 default).matrix.mul (s.getD ij.2 default).matrix ∉ matsOf ops0) ∨
    (∃ s2, closure_step s ij = .ok s2 ∧ slotInv ops0 s2 ∧
      (s.getD ij.1 default).matrix.mul (s.getD ij.2 default).matrix ∈ matsOf ops0) := by
  obtain ⟨hcore, hslots⟩ := hP
  have hmats : matsOf s = matsOf ops0 := core_matsOf hcore
  by_cases hmem : (s.getD ij.1 default).matrix.mul (s.getD ij.2 default).matrix ∈ matsOf ops0
  · right
    obtain ⟨p, hpok, hpm⟩ := ewm_ok_of_mem (hmats ▸ hmem)
    obtain ⟨e, heok, hem⟩ := idOne_core hcore hid
    have hstep := closure_step_eq s ij hpok heok
    by_cases heq : is_same_matrix p.matrix e.matrix = true
    · rw [heq] at hstep
      simp only [if_true] at hstep
      have hprod1 : (s.getD ij.1 default).matrix.mul (s.getD ij.2 default).matrix =
          Mat3.one := by
        rw [← hpm, is_same_matrix_iff.mp heq, hem]
      rw [no_conflict ⟨hcore, hslots⟩ hi hj hprod1] at hstep
      simp only [Bool.false_eq_true, if_false] at hstep
      refine ⟨_, hstep, ⟨?_, ?_⟩, hmem⟩
      · rw [setInverse_map_coreOf, setInverse_map_coreOf, hcore]
      · intro o ho m hom
        have hilen : ij.1 < s.length := hi
        have hjlen2 : ij.2 < (setInverse s ij.1 (s.getD ij.2 default).matrix).length := by
          rw [setInverse_length]; exact hj
        rcases mem_setInverse _ _ _ _ ho with ho2 | ⟨_, rfl⟩
        · rcases mem_setInverse _ _ _ _ ho2 with ho3 | ⟨_, rfl⟩
          · exact hslots o ho3 m hom
          · simp only [Option.some.injEq] at hom
            subst hom
            refine ⟨hprod1, ?_⟩
            rw [← hmats]
            exact mem_matsOf.mpr ⟨_, getD_mem default s ij.2 hj, rfl⟩
        · simp only [Option.some.injEq] at hom
          subst hom
          by_cases hji : ij.2 = ij.1
          · rw [hji, setInverse_getD_same s ij.1 _ hi]
            have haa : (s.getD ij.1 default).matrix.mul (s.getD ij.1 default).matrix =
                Mat3.one := by
              rw [← hji] at hprod1 ⊢
              exact hprod1
            refine ⟨haa, ?_⟩
            rw [← hmats]
            exact mem_matsOf.mpr ⟨_, getD_mem default s ij.1 hi, rfl⟩
          · rw [setInverse_getD_other s ij.1 _ ij.2 hji]
            refine ⟨Mat3.mul_eq_one_comm3 hprod1, ?_⟩
            rw [← hmats]
            exact mem_matsOf.mpr ⟨_, getD_mem default s ij.1 hi, rfl⟩
    · rw [Bool.not_eq_true] at heq
      rw [heq] at hstep
      simp only [Bool.false_eq_true, if_false] at hstep
      exact ⟨s, hstep, ⟨hcore, hslots⟩, hmem⟩
  · left
    have hbad : (s.getD ij.1 default).matrix.mul (s.getD ij.2 default).matrix ∉ matsOf s := by
      rw [hmats]; exact hmem
    exact ⟨closure_step_err_eq s ij hbad, hmem⟩

theorem identity_element_ok_mem {ops : List SymOp} {e : SymOp}
    (h : identity_element ops = .ok e) : e ∈ ops ∧ e.kind = OpKind.identity := by
  unfold identity_element at h
  cases hf : ops.find? (fun o => o.kind == OpKind.identity) with
  | none => rw [hf] at h; exact absurd h (by simp)
  | some o =>
    rw [hf] at h
    cases h
    have hp := List.find?_some hf
    exact ⟨List.mem_of_find?_eq_some hf, by simpa using hp⟩

theorem idOne_one_mem {ops : List SymOp} (hid : idOne ops) :
    Mat3.one ∈ matsOf ops := by
  obtain ⟨e, heok, hem⟩ := hid
  exact mem_matsOf.mpr ⟨e, (identity_element_ok_mem heok).1, hem⟩

/-- When the product of the pair is the identity (in a correct state), the
step links both inverse slots. -/
theorem closure_step_fire (ops0 : List SymOp) (hid : idOne ops0)
    (s : List SymOp) (ij : Nat × Nat) (hP : slotInv ops0 s)
    (hi : ij.1 < s.length) (hj : ij.2 < s.length)
    (hprod1 : (s.getD ij.1 default).matrix.mul (s.getD ij.2 default).matrix = Mat3.one) :
    closure_step s ij = .ok (setInverse (setInverse s ij.1
      (s.getD ij.2 default).matrix) ij.2 (s.getD ij.1 default).matrix) := by
  obtain ⟨hcore, hslots⟩ := hP
  have hmats : matsOf s = matsOf ops0 := core_matsOf hcore
  have hmem : (s.getD ij.1 default).matrix.mul (s.getD ij.2 default).matrix ∈ matsOf s := by
    rw [hprod1, hmats]
    exact idOne_one_mem hid
  obtain ⟨p, hpok, hpm⟩ := ewm_ok_of_mem hmem
  obtain ⟨e, heok, hem⟩ := idOne_core hcore hid
  have hstep := closure_step_eq s ij hpok heok
  have heq : is_same_matrix p.matrix e.matrix = true := by
    rw [is_same_matrix_iff, hpm, hem, hprod1]
  rw [heq] at hstep
  simp only [if_true] at hstep
  rw [no_conflict ⟨hcore, hslots⟩ hi hj hprod1] at hstep
  simpa using hstep

/-- An inverse slot already written is never changed by a successful step. -/
theorem closure_step_persist (ops0 : List SymOp) (hid : idOne ops0)
    (s s2 : List SymOp) (ij : Nat × Nat) (k : Nat) (m0 : Mat3)
    (hP : slotInv ops0 s) (hi : ij.1 < s.length) (hj : ij.2 < s.length)
    (hk : (s.getD k default).inverse = some m0)
    (hok : closure_step s ij = .ok s2) :
    (s2.getD k default).inverse = some m0 := by
  obtain ⟨hcore, hslots⟩ := hP
  have hmats : matsOf s = matsOf ops0 := core_matsOf hcore
  by_cases hmem : (s.getD ij.1 default).matrix.mul (s.getD ij.2 default).matrix ∈ matsOf s
  · obtain ⟨p, hpok, hpm⟩ := ewm_ok_of_mem hmem
    obtain ⟨e, heok, hem⟩ := idOne_core hcore hid
    have hstep := closure_step_eq s ij hpok heok
    by_cases heq : is_same_matrix p.matrix e.matrix = true
    · rw [heq] at hstep
      simp only [if_true] at hstep
      have hprod1 : (s.getD ij.1 default).matrix.mul (s.getD ij.2 default).matrix =
          Mat3.one := by
        rw [← hpm, is_same_matrix_iff.mp heq, hem]
      rw [no_conflict ⟨hcore, hslots⟩ hi hj hprod1] at hstep
      simp only [Bool.false_eq_true, if_false] at hstep
      rw [hok] at hstep
      cases hstep
      -- s2 is the double update
      by_cases hkj : k = ij.2
      · rw [hkj] at hk ⊢
        have hjlen : ij.2 < (setInverse s ij.1 (s.getD ij.2 default).matrix).length := by
          rw [setInverse_length]; exact hj
        rw [setInverse_getD_same _ _ _ hjlen]
        have hnc := no_conflict ⟨hcore, hslots⟩ hi hj hprod1
        simp only [Bool.or_eq_false_iff, Bool.and_eq_false_iff] at hnc
        rcases hnc.2 with hnone | hne
        · rw [hk] at hnone
          simp at hnone
        · rw [hk] at hne
          simp only [bne_eq_false_iff_eq, Option.some.injEq] at hne
          simp [hne]
      · rw [setInverse_getD_other _ _ _ _ hkj]
        by_cases hki : k = ij.1
        · rw [hki] at hk ⊢
          rw [setInverse_getD_same _ _ _ hi]
          have hnc := no_conflict ⟨hcore, hslots⟩ hi hj hprod1
          simp only [Bool.or_eq_false_iff, Bool.and_eq_false_iff] at hnc
          rcases hnc.1 with hnone | hne
          · rw [hk] at hnone
            simp at hnone
          · rw [hk] at hne
            simp only [bne_eq_false_iff_eq, Option.some.injEq] at hne
            simp [hne]
        · rw [setInverse_getD_other _ _ _ _ hki]
          exact hk
    · rw [Bool.not_eq_true] at heq
      rw [heq] at hstep
      simp only [Bool.false_eq_true, if_false] at hstep
      rw [hok] at hstep
      cases hstep
      exact hk
  · rw [closure_step_err_eq s ij hmem] at hok
    exact absurd hok (by simp)

theorem slotInv_length {ops0 s : List SymOp} (hP : slotInv ops0 s) :
    s.length = ops0.length :=
  core_length hP.1

theorem slotInv_init {ops0 : List SymOp}
    (hfresh : ∀ o ∈ ops0, o.inverse = none) : slotInv ops0 ops0 := by
  refine ⟨rfl, fun o ho m hom => ?_⟩
  rw [hfresh o ho] at hom
  exact absurd hom (by simp)

theorem closure_pres (ops0 : List SymOp) (hid : idOne ops0) :
    ∀ (s2 : List SymOp) (x : Nat × Nat) (s3 : List SymOp),
      x ∈ pairList ops0.length → slotInv ops0 s2 →
      closure_step s2 x = .ok s3 → slotInv ops0 s3 := by
  intro s2 x s3 hx hP hok
  obtain ⟨hx1, hx2⟩ := mem_pairList.mp hx
  have hlen := slotInv_length hP
  rcases closure_step_spec ops0 hid s2 x hP (by omega) (by omega) with
    ⟨herr, _⟩ | ⟨s4, hok2, hP4, _⟩
  · rw [herr] at hok
    exact absurd hok (by simp)
  · rw [hok2] at hok
    cases hok
    exact hP4

/-- A successful closure pass leaves the invariant intact and witnesses that
every pairwise product matrix is present in the group. -/
theorem check_closure_ok_spec (ops0 t : List SymOp) (hid : idOne ops0)
    (hfresh : ∀ o ∈ ops0, o.inverse = none)
    (h : check_closure ops0 = .ok t) :
    slotInv ops0 t ∧
    ∀ i j, i < ops0.length → j < ops0.length →
      (ops0.getD i default).matrix.mul (ops0.getD j default).matrix ∈ matsOf ops0 := by
  constructor
  · exact exfold_ok_invariant closure_step (slotInv ops0) (pairList ops0.length)
      ops0 t h (slotInv_init hfresh) (closure_pres ops0 hid)
  · intro i j hi hj
    have hx : (i, j) ∈ pairList ops0.length := mem_pairList.mpr ⟨hi, hj⟩
    obtain ⟨s1, s2, hP1, hok⟩ := exfold_ok_processed closure_step (slotInv ops0)
      (pairList ops0.length) ops0 t h (slotInv_init hfresh)
      (closure_pres ops0 hid) (i, j) hx
    have hlen := slotInv_length hP1
    rcases closure_step_spec ops0 hid s1 (i, j) hP1 (by simpa [hlen] using hi)
        (by simpa [hlen] using hj) with ⟨herr, _⟩ | ⟨s4, _, _, hmem⟩
    · rw [herr] at hok
      exact absurd hok (by simp)
    · have h1 := getD_core_matrix hP1.1 i
      have h2 := getD_core_matrix hP1.1 j
      rw [h1, h2] at hmem
      exact hmem

/-- An unmatched pairwise product makes the closure pass fail with the
"Group not closed" error. -/
theorem check_closure_err_spec (ops0 : List SymOp) (hid : idOne ops0)
    (hfresh : ∀ o ∈ ops0, o.inverse = none) (i j : Nat)
    (hi : i < ops0.length) (hj : j < ops0.length)
    (hbad : (ops0.getD i default).matrix.mul (ops0.getD j default).matrix ∉ matsOf ops0) :
    ∃ m, check_closure ops0 = .error (.groupNotClosed m) := by
  have hmain := exfold_error_of_bad closure_step (slotInv ops0)
    (fun e => ∃ m, e = .groupNotClosed m) (pairList ops0.length) ops0
    (slotInv_init hfresh) ?hstep ?hbad
  · rcases hmain with ⟨e, he, m, rfl⟩
    exact ⟨m, he⟩
  case hstep =>
    intro s2 x hP hx
    obtain ⟨hx1, hx2⟩ := mem_pairList.mp hx
    have hlen := slotInv_length hP
    rcases closure_step_spec ops0 hid s2 x hP (by omega) (by omega) with
      ⟨herr, _⟩ | ⟨s4, hok2, hP4, _⟩
    · exact Or.inl ⟨_, herr, _, rfl⟩
    · exact Or.inr ⟨s4, hok2, hP4⟩
  case hbad =>
    refine ⟨(i, j), mem_pairList.mpr ⟨hi, hj⟩, fun s2 hP => ?_⟩
    have hlen := slotInv_length hP
    rcases closure_step_spec ops0 hid s2 (i, j) hP (by simpa [hlen] using hi)
        (by simpa [hlen] using hj) with ⟨herr, _⟩ | ⟨s4, _, _, hmem⟩
    · exact ⟨_, herr, _, rfl⟩
    · have h1 := getD_core_matrix hP.1 i
      have h2 := getD_core_matrix hP.1 j
      rw [h1, h2] at hmem
      exact absurd hmem hbad

/-- After a successful closure pass, each pair whose product is the identity
has its two inverse slots linked symmetrically. -/
theorem check_closure_slots (ops0 t : List SymOp) (hid : idOne ops0)
    (hfresh : ∀ o ∈ ops0, o.inverse = none)
    (h : check_closure ops0 = .ok t) (i j : Nat)
    (hi : i < ops0.length) (hj : j < ops0.length)
    (hprod1 : (ops0.getD i default).matrix.mul (ops0.getD j default).matrix = Mat3.one) :
    (t.getD i default).inverse = some (ops0.getD j default).matrix ∧
    (t.getD j default).inverse = some (ops0.getD i default).matrix := by
  have hx : (i, j) ∈ pairList ops0.length := mem_pairList.mpr ⟨hi, hj⟩
  obtain ⟨l1, l2, hsplit⟩ := List.append_of_mem hx
  unfold check_closure at h
  rw [hsplit] at h
  obtain ⟨s1, s2, hfold1, hstep, hfold2⟩ := exfold_split closure_step l1 (i, j) l2 ops0 t h
  have hP1 : slotInv ops0 s1 := by
    refine exfold_ok_invariant closure_step (slotInv ops0) l1 ops0 s1 hfold1
      (slotInv_init hfresh) ?_
    intro s3 x s4 hxmem hP hok
    exact closure_pres ops0 hid s3 x s4 (by rw [hsplit]; exact List.mem_append_left _ hxmem)
      hP hok
  have hlen1 := slotInv_length hP1
  have hprodS : (s1.getD i default).matrix.mul (s1.getD j default).matrix = Mat3.one := by
    rw [getD_core_matrix hP1.1 i, getD_core_matrix hP1.1 j]
    exact hprod1
  have hfire := closure_step_fire ops0 hid s1 (i, j) hP1 (by omega) (by omega) hprodS
  rw [hstep] at hfire
  have hs2 : s2 = setInverse (setInverse s1 i (s1.getD j default).matrix) j
      (s1.getD i default).matrix := by
    cases hfire
    rfl
  have hjlen2 : j < (setInverse s1 i (s1.getD j default).matrix).length := by
    rw [setInverse_length]; omega
  have hslotj : (s2.getD j default).inverse = some (ops0.getD i default).matrix := by
    rw [hs2, setInverse_getD_same _ _ _ hjlen2]
    show some (s1.getD i default).matrix = some (ops0.getD i default).matrix
    rw [getD_core_matrix hP1.1 i]
  have hsloti : (s2.getD i default).inverse = some (ops0.getD j default).matrix := by
    by_cases hij : i = j
    · rw [hij]
      rw [hslotj, hij]
    · rw [hs2, setInverse_getD_other _ _ _ _ hij,
        setInverse_getD_same _ _ _ (by omega : i < s1.length)]
      show some (s1.getD j default).matrix = some (ops0.getD j default).matrix
      rw [getD_core_matrix hP1.1 j]
  have hP2 : slotInv ops0 s2 := by
    rcases closure_step_spec ops0 hid s1 (i, j) hP1 (by omega) (by omega) with
      ⟨herr, _⟩ | ⟨s4, hok2, hP4, _⟩
    · rw [herr] at hstep
      exact absurd hstep (by simp)
    · rw [hok2] at hstep
      cases hstep
      exact hP4
  have hfinal := exfold_ok_invariant closure_step
    (fun s => slotInv ops0 s ∧
      (s.getD i default).inverse = some (ops0.getD j default).matrix ∧
      (s.getD j default).inverse = some (ops0.getD i default).matrix)
    l2 s2 t hfold2 ⟨hP2, hsloti, hslotj⟩ ?_
  · exact ⟨hfinal.2.1, hfinal.2.2⟩
  · intro s3 x s4 hxmem ⟨hP3, hsi, hsj⟩ hok
    have hxp : x ∈ pairList ops0.length := by
      rw [hsplit]
      exact List.mem_append_right _ (List.mem_cons_of_mem _ hxmem)
    obtain ⟨hx1, hx2⟩ := mem_pairList.mp hxp
    have hlen3 := slotInv_length hP3
    refine ⟨closure_pres ops0 hid s3 x s4 hxp hP3 hok, ?_, ?_⟩
    · exact closure_step_persist ops0 hid s3 s4 x i _ hP3 (by omega) (by omega) hsi hok
    · exact closure_step_persist ops0 hid s3 s4 x j _ hP3 (by omega) (by omega) hsj hok

/-! ### Inverses in a finite closed set of invertible matrices -/

theorem finite_inverse (S : List Mat3)
    (hcl : ∀ m1 ∈ S, ∀ m2 ∈ S, m1.mul m2 ∈ S)
    (hone : Mat3.one ∈ S) (a : Mat3) (ha : a ∈ S)
    (hainv : ∃ b : Mat3, b.mul a = Mat3.one) :
    ∃ b ∈ S, a.mul b = Mat3.one := by
  classical
  obtain ⟨c, hc⟩ := hainv
  have hmapsto : ∀ m ∈ S.toFinset, a.mul m ∈ S.toFinset := by
    intro m hm
    exact List.mem_toFinset.mpr (hcl a ha m (List.mem_toFinset.mp hm))
  have hinj : Set.InjOn (fun m => a.mul m) S.toFinset := by
    intro x _ y _ hxy
    simp only at hxy
    have h2 : c.mul (a.mul x) = c.mul (a.mul y) := by rw [hxy]
    rwa [← Mat3.mul_assoc3, ← Mat3.mul_assoc3, hc, Mat3.one_mul3,
      Mat3.one_mul3] at h2
  have himage : S.toFinset.image (fun m => a.mul m) = S.toFinset := by
    apply Finset.eq_of_subset_of_card_le
    · intro x hx
      rcases Finset.mem_image.mp hx with ⟨m, hm, rfl⟩
      exact hmapsto m hm
    · rw [Finset.card_image_of_injOn hinj]
  have hone2 : Mat3.one ∈ S.toFinset.image (fun m => a.mul m) := by
    rw [himage]
    exact List.mem_toFinset.mpr hone
  rcases Finset.mem_image.mp hone2 with ⟨b, hb, hab⟩
  exact ⟨b, List.mem_toFinset.mp hb, hab⟩


theorem GoodSet.inv_mem {S : List Mat3} (hS : GoodSet S) (m : Mat3) (hm : m ∈ S) :
    ∃ mi ∈ S, m.mul mi = Mat3.one ∧ mi.mul m = Mat3.one := by
  obtain ⟨b, hbS, hb⟩ := finite_inverse S hS.closed hS.one_mem m hm (hS.inv_ex m hm)
  exact ⟨b, hbS, hb, Mat3.mul_eq_one_comm3 hb⟩


theorem conjRel_refl {S : List Mat3} (hS : GoodSet S) {m : Mat3} (hm : m ∈ S) :
    conjRel S m m := by
  refine ⟨Mat3.one, Mat3.one, hS.one_mem, Mat3.one_mul3 Mat3.one, ?_⟩
  rw [Mat3.one_mul3, Mat3.mul_one3]

theorem conjRel_gi_mem {S : List Mat3} (hS : GoodSet S) {g gi : Mat3}
    (hg : g ∈ S) (hgi : g.mul gi = Mat3.one) : gi ∈ S := by
  obtain ⟨mi, hmiS, hmi, _⟩ := hS.inv_mem g hg
  have : gi = mi := Mat3.right_inv_unique hgi hmi
  rw [this]
  exact hmiS

theorem conjRel_mem {S : List Mat3} (hS : GoodSet S) {m x : Mat3}
    (hm : m ∈ S) (hx : conjRel S m x) : x ∈ S := by
  obtain ⟨g, gi, hg, hgi, rfl⟩ := hx
  exact hS.closed _ (hS.closed g hg m hm) _ (conjRel_gi_mem hS hg hgi)

theorem conjRel_symm {S : List Mat3} (hS : GoodSet S) {m x : Mat3}
    (hm : m ∈ S) (hx : conjRel S m x) : conjRel S x m := by
  obtain ⟨g, gi, hg, hgi, rfl⟩ := hx
  have hgig : gi.mul g = Mat3.one := Mat3.mul_eq_one_comm3 hgi
  refine ⟨gi, g, conjRel_gi_mem hS hg hgi, hgig, ?_⟩
  calc m = (Mat3.one.mul m).mul Mat3.one := by
        rw [Mat3.one_mul3, Mat3.mul_one3]
    _ = ((gi.mul g).mul m).mul (gi.mul g) := by rw [hgig]
    _ = (gi.mul ((g.mul m).mul gi)).mul g := by
        simp only [Mat3.mul_assoc3]

theorem conjRel_trans {S : List Mat3} (hS : GoodSet S) {m x y : Mat3}
    (h1 : conjRel S m x) (h2 : conjRel S x y) : conjRel S m y := by
  obtain ⟨g1, gi1, hg1, hgi1, rfl⟩ := h1
  obtain ⟨g2, gi2, hg2, hgi2, rfl⟩ := h2
  refine ⟨g2.mul g1, gi1.mul gi2, hS.closed g2 hg2 g1 hg1, ?_, ?_⟩
  · calc (g2.mul g1).mul (gi1.mul gi2) = g2.mul ((g1.mul gi1).mul gi2) := by
          simp only [Mat3.mul_assoc3]
      _ = g2.mul gi2 := by rw [hgi1, Mat3.one_mul3]
      _ = Mat3.one := hgi2
  · simp only [Mat3.mul_assoc3]

/-! ### More generic list lemmas (positional `set`/`getD` reasoning) -/

theorem mem_iff_getD {α : Type} (d : α) :
    ∀ (l : List α) (x : α), x ∈ l ↔ ∃ i, i < l.length ∧ l.getD i d = x := by
  intro l
  induction l with
  | nil => intro x; simp
  | cons a rest ih =>
    intro x
    constructor
    · intro hx
      rcases List.mem_cons.mp hx with rfl | hx2
      · exact ⟨0, by simp, by simp⟩
      · rcases (ih x).mp hx2 with ⟨i, hi, hget⟩
        exact ⟨i + 1, by simpa using hi, by simpa using hget⟩
    · rintro ⟨i, hi, hget⟩
      cases i with
      | zero =>
        simp only [List.getD_cons_zero] at hget
        rw [← hget]
        simp
      | succ k =>
        simp only [List.getD_cons_succ] at hget
        exact List.mem_cons_of_mem a ((ih x).mpr ⟨k, by simpa using hi, hget⟩)

theorem getD_set_same {α : Type} (d : α) :
    ∀ (l : List α) (k : Nat) (a : α), k < l.length → (l.set k a).getD k d = a := by
  intro l
  induction l with
  | nil => intro k a h; exact absurd h (by simp)
  | cons b rest ih =>
    intro k a h
    cases k with
    | zero => simp
    | succ k2 => simpa using ih k2 a (by simpa using h)

theorem getD_set_other {α : Type} (d : α) :
    ∀ (l : List α) (k : Nat) (a : α) (p : Nat), p ≠ k →
      (l.set k a).getD p d = l.getD p d := by
  intro l
  induction l with
  | nil => intro k a p _; simp
  | cons b rest ih =>
    intro k a p hp
    cases k with
    | zero =>
      cases p with
      | zero => exact absurd rfl hp
      | succ p2 => simp
    | succ k2 =>
      cases p with
      | zero => simp
      | succ p2 => simpa using ih k2 a p2 (fun hc => hp (by rw [hc]))

theorem set_ge_length {α : Type} :
    ∀ (l : List α) (k : Nat) (a : α), l.length ≤ k → l.set k a = l := by
  intro l
  induction l with
  | nil => intro k a _; simp
  | cons b rest ih =>
    intro k a h
    cases k with
    | zero => exact absurd h (by simp)
    | succ k2 => simpa using ih k2 a (by simpa using h)

/-! ### The conjugacy-class pass -/

theorem mem_addElement {cl : List Mat3} {m x : Mat3} :
    x ∈ addElement cl m ↔ x ∈ cl ∨ x = m := by
  unfold addElement
  by_cases h : m ∈ cl
  · rw [if_pos h]
    constructor
    · exact Or.inl
    · rintro (hx | rfl)
      · exact hx
      · exact h
  · rw [if_neg h]
    simp

/-- What a successful conjugate computation returns: the matrix
`g · op · g⁻¹`, where the slot of `g` holds a genuine right inverse. -/
theorem conj_elem_ok {t : List SymOp} {g op : SymOp} {v : Mat3}
    (hslots : ∀ o ∈ t, ∀ m, o.inverse = some m → o.matrix.mul m = Mat3.one)
    (hg : g ∈ t) (h : conj_elem t g op = .ok v) :
    ∃ gi, g.inverse = some gi ∧ g.matrix.mul gi = Mat3.one ∧
      v = (g.matrix.mul op.matrix).mul gi ∧ v ∈ matsOf t := by
  unfold conj_elem at h
  cases hgi : g.inverse with
  | none => rw [hgi] at h; exact absurd h (by simp)
  | some gi =>
    rw [hgi] at h
    dsimp only at h
    cases h1 : element_with_matrix t (g.matrix.mul op.matrix) with
    | error e => rw [h1] at h; exact absurd h (by simp)
    | ok x1 =>
      rw [h1] at h
      dsimp only at h
      cases h2 : element_with_matrix t (x1.matrix.mul gi) with
      | error e => rw [h2] at h; exact absurd h (by simp)
      | ok x2 =>
        rw [h2] at h
        dsimp only at h
        cases h
        obtain ⟨hx1mem, hx1m⟩ := ewm_ok_spec h1
        obtain ⟨hx2mem, hx2m⟩ := ewm_ok_spec h2
        refine ⟨gi, rfl, hslots g hg gi hgi, ?_, ?_⟩
        · rw [hx2m, hx1m]
        · exact mem_matsOf.mpr ⟨x2, hx2mem, rfl⟩

theorem inner_fold_mem {t : List SymOp} {i : Nat} :
    ∀ (js : List Nat) (acc cl2 : List Mat3),
      List.foldlM (inner_step t i) acc js = .ok cl2 →
      ∀ x, x ∈ cl2 ↔ x ∈ acc ∨ ∃ j ∈ js, j ≠ i ∧
        conj_elem t (t.getD j default) (t.getD i default) = .ok x := by
  intro js
  induction js with
  | nil =>
    intro acc cl2 h x
    rw [exfold_nil] at h
    cases h
    simp
  | cons j rest ih =>
    intro acc cl2 h x
    rw [exfold_cons] at h
    by_cases hji : j = i
    · have hstep : inner_step t i acc j = .ok acc := by
        unfold inner_step
        rw [if_pos hji]
      rw [hstep] at h
      rw [ih acc cl2 h x]
      constructor
      · rintro (hx | ⟨j2, hj2, hne, hc⟩)
        · exact Or.inl hx
        · exact Or.inr ⟨j2, List.mem_cons_of_mem j hj2, hne, hc⟩
      · rintro (hx | ⟨j2, hj2, hne, hc⟩)
        · exact Or.inl hx
        · rcases List.mem_cons.mp hj2 with rfl | hj3
          · exact absurd hji hne
          · exact Or.inr ⟨j2, hj3, hne, hc⟩
    · cases hc : conj_elem t (t.getD j default) (t.getD i default) with
      | error e =>
        have hstep : inner_step t i acc j = .error e := by
          unfold inner_step
          rw [if_neg hji, hc]
        rw [hstep] at h
        exact absurd h (by simp)
      | ok m =>
        have hstep : inner_step t i acc j = .ok (addElement acc m) := by
          unfold inner_step
          rw [if_neg hji, hc]
        rw [hstep] at h
        rw [ih (addElement acc m) cl2 h x]
        constructor
        · rintro (hx | ⟨j2, hj2, hne, hc2⟩)
          · rcases mem_addElement.mp hx with hx2 | rfl
            · exact Or.inl hx2
            · exact Or.inr ⟨j, by simp, hji, hc⟩
          · exact Or.inr ⟨j2, List.mem_cons_of_mem j hj2, hne, hc2⟩
        · rintro (hx | ⟨j2, hj2, hne, hc2⟩)
          · exact Or.inl (mem_addElement.mpr (Or.inl hx))
          · rcases List.mem_cons.mp hj2 with rfl | hj3
            · rw [hc] at hc2
              cases hc2
              exact Or.inl (mem_addElement.mpr (Or.inr rfl))
            · exact Or.inr ⟨j2, hj3, hne, hc2⟩

theorem inner_conj_spec {t : List SymOp} {i : Nat} {cl cl2 : List Mat3}
    (h : inner_conj t i cl = .ok cl2) :
    (∀ x, x ∈ cl2 ↔ x ∈ cl ∨ ∃ j, j < t.length ∧ j ≠ i ∧
      conj_elem t (t.getD j default) (t.getD i default) = .ok x) ∧
    ∀ j, j < t.length → j ≠ i →
      ∃ m, conj_elem t (t.getD j default) (t.getD i default) = .ok m := by
  unfold inner_conj at h
  constructor
  · intro x
    rw [inner_fold_mem (List.range t.length) cl cl2 h x]
    simp only [List.mem_range]
  · intro j hj hne
    obtain ⟨acc1, acc2, _, hok⟩ := exfold_ok_processed (inner_step t i)
      (fun _ => True) (List.range t.length) cl cl2 h trivial
      (fun _ _ _ _ _ _ => trivial) j (List.mem_range.mpr hj)
    unfold inner_step at hok
    rw [if_neg hne] at hok
    cases hc : conj_elem t (t.getD j default) (t.getD i default) with
    | error e => rw [hc] at hok; exact absurd hok (by simp)
    | ok m => exact ⟨m, rfl⟩


theorem getD_append_left {α : Type} (d : α) :
    ∀ (l1 l2 : List α) (i : Nat), i < l1.length →
      (l1 ++ l2).getD i d = l1.getD i d := by
  intro l1
  induction l1 with
  | nil => intro l2 i h; exact absurd h (by simp)
  | cons a rest ih =>
    intro l2 i h
    cases i with
    | zero => simp
    | succ k => simpa using ih l2 k (by simpa using h)

theorem getD_append_len {α : Type} (d : α) :
    ∀ (l1 : List α) (a : α), (l1 ++ [a]).getD l1.length d = a := by
  intro l1
  induction l1 with
  | nil => intro a; simp
  | cons b rest ih => intro a; simpa using ih a

theorem pairwise_set_congr :
    ∀ (l : List (List Mat3)) (k : Nat) (cl2 : List Mat3),
      (∀ x, x ∈ cl2 ↔ x ∈ l.getD k []) → List.Pairwise disjCl l →
      List.Pairwise disjCl (l.set k cl2) := by
  intro l
  induction l with
  | nil => intro k cl2 _ _; simp
  | cons c rest ih =>
    intro k cl2 hcong hpw
    rcases List.pairwise_cons.mp hpw with ⟨hhead, hrest⟩
    cases k with
    | zero =>
      simp only [List.set_cons_zero]
      refine List.pairwise_cons.mpr ⟨?_, hrest⟩
      intro c2 hc2 x hx
      have hx2 : x ∈ c := by
        have h3 := (hcong x).mp hx
        simpa using h3
      exact hhead c2 hc2 x hx2
    | succ k2 =>
      by_cases hk : k2 < rest.length
      · simp only [List.set_cons_succ]
        refine List.pairwise_cons.mpr ⟨?_, ih k2 cl2 (by simpa using hcong) hrest⟩
        intro c2 hc2
        rcases List.mem_or_eq_of_mem_set hc2 with hc3 | rfl
        · exact hhead c2 hc3
        · intro x hx hxc2
          have hx2 : x ∈ rest.getD k2 [] := by
            have h4 := (hcong x).mp hxc2
            simpa using h4
          exact hhead _ (getD_mem ([] : List Mat3) rest k2 hk) x hx hx2
      · simp only [List.set_cons_succ]
        rw [set_ge_length rest k2 cl2 (by omega)]
        exact hpw

/-- A successfully computed conjugate lies in the conjugacy orbit of the
conjugated operation. -/
theorem conj_value_rel {t : List SymOp} {S : List Mat3} (hSdef : S = matsOf t)
    (hslots : ∀ o ∈ t, ∀ m, o.inverse = some m → o.matrix.mul m = Mat3.one)
    {i j : Nat} (hj : j < t.length) {x : Mat3}
    (hc : conj_elem t (t.getD j default) (t.getD i default) = .ok x) :
    conjRel S ((t.getD i default).matrix) x := by
  obtain ⟨gi, _, hgi1, hxeq, _⟩ := conj_elem_ok hslots (getD_mem default t j hj) hc
  exact ⟨(t.getD j default).matrix, gi,
    hSdef ▸ mem_matsOf.mpr ⟨_, getD_mem default t j hj, rfl⟩, hgi1, hxeq⟩

/-- After the inner loop, the class contains the whole conjugacy orbit of the
operation being classified (given that the operation itself is in it). -/
theorem orbit_covered {t : List SymOp} {S : List Mat3} (hSdef : S = matsOf t)
    (hslots : ∀ o ∈ t, ∀ m, o.inverse = some m → o.matrix.mul m = Mat3.one)
    {i : Nat} (hi : i < t.length) {cl cl2 : List Mat3}
    (h : inner_conj t i cl = .ok cl2)
    (hseed : (t.getD i default).matrix ∈ cl2)
    {x : Mat3} (hx : conjRel S ((t.getD i default).matrix) x) : x ∈ cl2 := by
  obtain ⟨gm, gi, hgmS, hgm1, rfl⟩ := hx
  obtain ⟨o, hot, hom⟩ := mem_matsOf.mp (hSdef ▸ hgmS)
  obtain ⟨j0, hj0, hj0get⟩ := (mem_iff_getD default t o).mp hot
  by_cases hex : ∃ j, j < t.length ∧ j ≠ i ∧ (t.getD j default).matrix = gm
  · obtain ⟨j, hj, hne, hjm⟩ := hex
    obtain ⟨m, hcm⟩ := (inner_conj_spec h).2 j hj hne
    obtain ⟨gi2, _, hgi2one, hmeq, _⟩ :=
      conj_elem_ok hslots (getD_mem default t j hj) hcm
    rw [hjm] at hgi2one hmeq
    have : gi2 = gi := Mat3.right_inv_unique hgi2one hgm1
    rw [this] at hmeq
    rw [← hmeq]
    exact ((inner_conj_spec h).1 m).mpr (Or.inr ⟨j, hj, hne, hcm⟩)
  · push_neg at hex
    have hmi : gm = (t.getD i default).matrix := by
      by_cases hji : j0 = i
      · rw [← hom, ← hj0get, hji]
      · exact absurd (by rw [hj0get]; exact hom) (hex j0 hj0 hji)
    have hxmi : (gm.mul (t.getD i default).matrix).mul gi = (t.getD i default).matrix := by
      rw [← hmi, Mat3.mul_assoc3, hgm1, Mat3.mul_one3]
    rw [hxmi]
    exact hseed

/-- The full analysis of one outer iteration of `_compute_classes`: the
invariant is preserved, membership in the union of classes is preserved, and
the classified operation now lies in some class. -/
theorem classes_step_spec {t : List SymOp} {S : List Mat3}
    (hSdef : S = matsOf t) (hS : GoodSet S)
    (hslots : ∀ o ∈ t, ∀ m, o.inverse = some m → o.matrix.mul m = Mat3.one)
    {classes cls2 : List (List Mat3)} {i : Nat} (hi : i < t.length)
    (hok : classes_step t classes i = .ok cls2)
    (hcl : classesOk S classes) :
    classesOk S cls2 ∧
    (∀ x, (∃ p, p < classes.length ∧ x ∈ classes.getD p []) →
      ∃ p, p < cls2.length ∧ x ∈ cls2.getD p []) ∧
    (∃ p, p < cls2.length ∧ (t.getD i default).matrix ∈ cls2.getD p []) := by
  have hmiS : (t.getD i default).matrix ∈ S :=
    hSdef ▸ mem_matsOf.mpr ⟨_, getD_mem default t i hi, rfl⟩
  unfold classes_step at hok
  dsimp only at hok
  cases hhits : (List.range classes.length).filter
      (fun k => decide ((t.getD i default).matrix ∈ classes.getD k [])) with
  | nil =>
    rw [hhits] at hok
    dsimp only at hok
    have hnone : ∀ k, k < classes.length →
        (t.getD i default).matrix ∉ classes.getD k [] := by
      intro k hk hmem
      have : k ∈ (List.range classes.length).filter
          (fun k => decide ((t.getD i default).matrix ∈ classes.getD k [])) :=
        List.mem_filter.mpr ⟨List.mem_range.mpr hk, decide_eq_true hmem⟩
      rw [hhits] at this
      exact absurd this (by simp)
    cases hic : inner_conj t i [(t.getD i default).matrix] with
    | error e => rw [hic] at hok; exact absurd hok (by simp)
    | ok cl =>
      rw [hic] at hok
      dsimp only at hok
      cases hok
      have hseed : (t.getD i default).matrix ∈ cl :=
        ((inner_conj_spec hic).1 _).mpr (Or.inl (by simp))
      have horbit : ∀ x, x ∈ cl ↔ conjRel S ((t.getD i default).matrix) x := by
        intro x
        constructor
        · intro hx
          rcases ((inner_conj_spec hic).1 x).mp hx with hx2 | ⟨j, hj, hne, hc⟩
          · have : x = (t.getD i default).matrix := by simpa using hx2
            rw [this]
            exact conjRel_refl hS hmiS
          · exact conj_value_rel hSdef hslots hj hc
        · intro hx
          exact orbit_covered hSdef hslots hi hic hseed hx
      refine ⟨⟨?_, ?_⟩, ?_, ?_⟩
      · intro c hc
        rcases List.mem_append.mp hc with hc2 | hc2
        · exact hcl.1 c hc2
        · have : c = cl := by simpa using hc2
          rw [this]
          exact ⟨_, hmiS, horbit⟩
      · rw [List.pairwise_append]
        refine ⟨hcl.2, by simp, ?_⟩
        intro c1 hc1 c2 hc2 x hx1 hx2
        have hc2cl : c2 = cl := by simpa using hc2
        rw [hc2cl] at hx2
        obtain ⟨s1, hs1S, hcl1⟩ := hcl.1 c1 hc1
        have hrel1 : conjRel S s1 x := (hcl1 x).mp hx1
        have hrel2 : conjRel S ((t.getD i default).matrix) x := (horbit x).mp hx2
        have hrel3 : conjRel S s1 ((t.getD i default).matrix) :=
          conjRel_trans hS hrel1 (conjRel_symm hS hmiS hrel2)
        have hmem1 : (t.getD i default).matrix ∈ c1 := (hcl1 _).mpr hrel3
        obtain ⟨p, hp, hpget⟩ := (mem_iff_getD ([] : List Mat3) classes c1).mp hc1
        exact hnone p hp (hpget ▸ hmem1)
      · intro x ⟨p, hp, hx⟩
        refine ⟨p, by simpa using Nat.lt_succ_of_lt (by simpa using hp), ?_⟩
        rw [getD_append_left _ _ _ _ hp]
        exact hx
      · refine ⟨classes.length, by simp, ?_⟩
        rw [getD_append_len]
        exact hseed
  | cons k krest =>
    cases krest with
    | cons k2 krest2 =>
      rw [hhits] at hok
      dsimp only at hok
      exact absurd hok (by simp)
    | nil =>
      rw [hhits] at hok
      dsimp only at hok
      have hkmem : k ∈ (List.range classes.length).filter
          (fun k => decide ((t.getD i default).matrix ∈ classes.getD k [])) := by
        rw [hhits]; simp
      have hk : k < classes.length := by
        have := List.mem_filter.mp hkmem
        simpa using List.mem_range.mp this.1
      have hmik : (t.getD i default).matrix ∈ classes.getD k [] := by
        have := List.mem_filter.mp hkmem
        simpa using this.2
      cases hic : inner_conj t i (classes.getD k []) with
      | error e => rw [hic] at hok; exact absurd hok (by simp)
      | ok cl =>
        rw [hic] at hok
        dsimp only at hok
        cases hok
        obtain ⟨s, hsS, hck⟩ := hcl.1 _ (getD_mem ([] : List Mat3) classes k hk)
        have hsmi : conjRel S s ((t.getD i default).matrix) := (hck _).mp hmik
        have hseed : (t.getD i default).matrix ∈ cl :=
          ((inner_conj_spec hic).1 _).mpr (Or.inl hmik)
        have hclset : ∀ x, x ∈ cl ↔ x ∈ classes.getD k [] := by
          intro x
          constructor
          · intro hx
            rcases ((inner_conj_spec hic).1 x).mp hx with hx2 | ⟨j, hj, hne, hc⟩
            · exact hx2
            · have hrel : conjRel S ((t.getD i default).matrix) x :=
                conj_value_rel hSdef hslots hj hc
              exact (hck x).mpr (conjRel_trans hS hsmi hrel)
          · intro hx
            exact ((inner_conj_spec hic).1 x).mpr (Or.inl hx)
        refine ⟨⟨?_, ?_⟩, ?_, ?_⟩
        · intro c hc
          rcases List.mem_or_eq_of_mem_set hc with hc2 | rfl
          · exact hcl.1 c hc2
          · exact ⟨s, hsS, fun x => (hclset x).trans (hck x)⟩
        · exact pairwise_set_congr classes k cl hclset hcl.2
        · intro x ⟨p, hp, hx⟩
          by_cases hpk : p = k
          · refine ⟨k, by simpa using hk, ?_⟩
            rw [getD_set_same _ _ _ _ hk]
            rw [hpk] at hx
            exact (hclset x).mpr hx
          · refine ⟨p, by simpa using hp, ?_⟩
            rw [getD_set_other _ _ _ _ _ hpk]
            exact hx
        · refine ⟨k, by simpa using hk, ?_⟩
          rw [getD_set_same _ _ _ _ hk]
          exact hseed

/-- The outer loop of `_compute_classes`: on success the classes are pairwise
disjoint full orbits and cover every operation. -/
theorem compute_classes_spec {t : List SymOp} {S : List Mat3}
    (hSdef : S = matsOf t) (hS : GoodSet S)
    (hslots : ∀ o ∈ t, ∀ m, o.inverse = some m → o.matrix.mul m = Mat3.one)
    {cls : List (List Mat3)} (h : compute_classes t = .ok cls) :
    classesOk S cls ∧
    ∀ i, i < t.length → ∃ p, p < cls.length ∧
      (t.getD i default).matrix ∈ cls.getD p [] := by
  unfold compute_classes at h
  have hpres : ∀ (c2 : List (List Mat3)) (x : Nat) (c3 : List (List Mat3)),
      x ∈ List.range t.length → classesOk S c2 →
      classes_step t c2 x = .ok c3 → classesOk S c3 := by
    intro c2 x c3 hx hP hok
    exact (classes_step_spec hSdef hS hslots (List.mem_range.mp hx) hok hP).1
  constructor
  · exact exfold_ok_invariant (classes_step t) (classesOk S) (List.range t.length)
      [] cls h ⟨by simp, by simp⟩ hpres
  · intro i hi
    obtain ⟨l1, l2, hsplit⟩ := List.append_of_mem (List.mem_range.mpr hi)
    rw [hsplit] at h
    obtain ⟨c1, c2, hfold1, hstep, hfold2⟩ :=
      exfold_split (classes_step t) l1 i l2 [] cls h
    have hP1 : classesOk S c1 :=
      exfold_ok_invariant _ (classesOk S) l1 [] c1 hfold1 ⟨by simp, by simp⟩
        (fun c3 x c4 hx => hpres c3 x c4
          (by rw [hsplit]; exact List.mem_append_left _ hx))
    have hspec := classes_step_spec hSdef hS hslots hi hstep hP1
    have hfinal := exfold_ok_invariant (classes_step t)
      (fun c => classesOk S c ∧ ∃ p, p < c.length ∧
        (t.getD i default).matrix ∈ c.getD p [])
      l2 c2 cls hfold2 ⟨hspec.1, hspec.2.2⟩ ?_
    · exact hfinal.2
    · intro c3 x c4 hx hP3 hok
      have hx2 : x ∈ List.range t.length := by
        rw [hsplit]
        exact List.mem_append_right _ (List.mem_cons_of_mem _ hx)
      have hs := classes_step_spec hSdef hS hslots (List.mem_range.mp hx2) hok hP3.1
      exact ⟨hs.1, hs.2.1 _ hP3.2⟩

theorem disjCl_symm : ∀ c1 c2, disjCl c1 c2 → disjCl c2 c1 := by
  intro c1 c2 h x hx2 hx1
  exact h x hx1 hx2

theorem classesOk_nonempty {S : List Mat3} (hS : GoodSet S)
    {cls : List (List Mat3)} (h : classesOk S cls) :
    ∀ cl ∈ cls, cl ≠ [] ∧ ∀ x ∈ cl, x ∈ S := by
  intro cl hcl
  obtain ⟨s, hsS, hiff⟩ := h.1 cl hcl
  constructor
  · intro hnil
    have : s ∈ cl := (hiff s).mpr (conjRel_refl hS hsS)
    rw [hnil] at this
    exact absurd this (by simp)
  · intro x hx
    exact conjRel_mem hS hsS ((hiff x).mp hx)

theorem groupRunsAux_join {α : Type} {κ : Type} [DecidableEq κ] (key : α → κ) :
    ∀ (fuel : Nat) (l : List α), l.length ≤ fuel →
      (groupRunsByAux key fuel l).flatten = l := by
  intro fuel
  induction fuel with
  | zero =>
    intro l h
    cases l with
    | nil => rfl
    | cons a rest => exact absurd h (by simp)
  | succ fuel2 ih =>
    intro l h
    cases l with
    | nil => rfl
    | cons a rest =>
      show ((a :: rest.takeWhile (fun b => key b == key a)) ::
        groupRunsByAux key fuel2 (rest.dropWhile (fun b => key b == key a))).flatten =
        a :: rest
      rw [List.flatten_cons,
        ih _ (le_trans (length_dropWhile_le _ rest) (by simpa using h)),
        List.cons_append, List.takeWhile_append_dropWhile]

theorem groupRuns_join {α : Type} {κ : Type} [DecidableEq κ] (key : α → κ)
    (l : List α) : (groupRunsBy key l).flatten = l :=
  groupRunsAux_join key l.length l (le_refl _)

/-! ### The naming pass only writes names and flags -/


theorem markFirst_map {β : Type} {f : SymOp → β} (hf : nameBlind f) (ax : Vec3) :
    ∀ l : List SymOp, (markFirst ax l).map f = l.map f := by
  intro l
  induction l with
  | nil => rfl
  | cons o rest ih =>
    unfold markFirst
    by_cases hc : (o.kind == OpKind.reflection && is_same_axis o.axis ax) = true
    · rw [if_pos hc]
      simp only [List.map_cons, hf.2 o, ih]
    · rw [if_neg hc]
      simp only [List.map_cons, ih]

theorem assignFlags_map {β : Type} {f : SymOp → β} (hf : nameBlind f)
    (l : List SymOp) : (assignFlags l).map f = l.map f := by
  unfold assignFlags
  cases (groupRunsBy (fun o => (o.n, o.exponent))
      (sortLe opLE (l.filter (fun o => o.kind == OpKind.rotation)))).headD [] with
  | nil => rfl
  | cons p0 prest =>
    dsimp only
    by_cases hn : p0.n > 2
    · rw [if_pos hn, List.map_map]
      apply List.map_congr_left
      intro o _
      by_cases hc : (o.kind == OpKind.reflection &&
          (p0 :: prest).any (fun r => is_same_axis o.axis r.axis)) = true
      · simp only [Function.comp_apply, if_pos hc, hf.2 o]
      · simp only [Function.comp_apply, if_neg hc]
    · rw [if_neg hn]
      exact markFirst_map hf p0.axis l

theorem setNameFirstKind_map {β : Type} {f : SymOp → β} (hf : nameBlind f)
    (k : OpKind) (nm : String) :
    ∀ l : List SymOp, (setNameFirstKind k nm l).map f = l.map f := by
  intro l
  induction l with
  | nil => rfl
  | cons o rest ih =>
    unfold setNameFirstKind
    by_cases hc : (o.kind == k) = true
    · rw [if_pos hc]
      simp only [List.map_cons, hf.1 o nm]
    · rw [if_neg hc]
      simp only [List.map_cons, ih]

theorem labelLoop_map {β : Type} {f : SymOp → β} (hf : nameBlind f)
    (pfx : String) (yv : Vec3) (order naxes : Nat) :
    ∀ (l : List SymOp) (i pc : Nat) (hp : Bool) (labels : List String)
      (out : List SymOp),
      labelLoop pfx yv order naxes i pc hp labels l = .ok out →
      out.map f = l.map f := by
  intro l
  induction l with
  | nil =>
    intro i pc hp labels out h
    unfold labelLoop at h
    cases h
    rfl
  | cons rot rest ih =>
    intro i pc hp labels out h
    unfold labelLoop at h
    by_cases hi : i < naxes
    · rw [if_pos hi] at h
      by_cases hz : is_same_axis rot.axis ⟨0, 0, 1⟩ = true
      · rw [if_pos hz] at h
        cases hr : labelLoop pfx yv order naxes (i + 1) pc true (labels ++ ["(z)"]) rest with
        | error e => rw [hr] at h; exact absurd h (by simp)
        | ok out2 =>
          rw [hr] at h
          dsimp only at h
          cases h
          simp only [List.map_cons, hf.1 rot, ih _ _ _ _ _ hr]
      · rw [if_neg hz] at h
        by_cases hy : is_same_axis rot.axis yv = true
        · rw [if_pos hy] at h
          cases hr : labelLoop pfx yv order naxes (i + 1) pc true (labels ++ ["(y)"]) rest with
          | error e => rw [hr] at h; exact absurd h (by simp)
          | ok out2 =>
            rw [hr] at h
            dsimp only at h
            cases h
            simp only [List.map_cons, hf.1 rot, ih _ _ _ _ _ hr]
        · rw [if_neg hy] at h
          by_cases hx : is_same_axis rot.axis ⟨1, 0, 0⟩ = true
          · rw [if_pos hx] at h
            cases hr : labelLoop pfx yv order naxes (i + 1) pc true (labels ++ ["(x)"]) rest with
            | error e => rw [hr] at h; exact absurd h (by simp)
            | ok out2 =>
              rw [hr] at h
              dsimp only at h
              cases h
              simp only [List.map_cons, hf.1 rot, ih _ _ _ _ _ hr]
          · rw [if_neg hx] at h
            dsimp only at h
            cases hr : labelLoop pfx yv order naxes (i + 1) (pc + 1) hp
                (labels ++ [primeStr (pc + (if hp then 1 else 0))]) rest with
            | error e => rw [hr] at h; exact absurd h (by simp)
            | ok out2 =>
              rw [hr] at h
              dsimp only at h
              cases h
              simp only [List.map_cons, hf.1 rot, ih _ _ _ _ _ hr]
    · rw [if_neg hi] at h
      by_cases hnx : naxes = 0
      · rw [if_pos hnx] at h
        exact absurd h (by simp)
      · rw [if_neg hnx] at h
        cases hr : labelLoop pfx yv order naxes (i + 1) pc hp labels rest with
        | error e => rw [hr] at h; exact absurd h (by simp)
        | ok out2 =>
          rw [hr] at h
          dsimp only at h
          cases h
          simp only [List.map_cons, hf.1 rot, ih _ _ _ _ _ hr]

theorem nameRotGroup_map {β : Type} {f : SymOp → β} (hf : nameBlind f)
    (pfx : String) (yv : Vec3) {g out : List SymOp}
    (h : nameRotGroup pfx yv g = .ok out) : out.map f = g.map f := by
  unfold nameRotGroup at h
  cases g with
  | nil => cases h; rfl
  | cons r0 rest =>
    dsimp only at h
    by_cases hlen : (r0 :: rest).length = r0.n - 1
    · rw [if_pos hlen] at h
      cases h
      simp only [List.map_cons, List.map_map, hf.1 r0]
      congr 1
      apply List.map_congr_left
      intro o _
      exact hf.1 o _
    · rw [if_neg hlen] at h
      exact labelLoop_map hf pfx yv r0.n _ (r0 :: rest) 0 0 false [] out h

theorem nameRotGroups_map {β : Type} {f : SymOp → β} (hf : nameBlind f)
    (pfx : String) (yv : Vec3) :
    ∀ (gs : List (List SymOp)) (out : List SymOp),
      nameRotGroups pfx yv gs = .ok out → out.map f = (gs.flatten).map f := by
  intro gs
  induction gs with
  | nil =>
    intro out h
    cases h
    rfl
  | cons g rest ih =>
    intro out h
    unfold nameRotGroups at h
    cases h1 : nameRotGroup pfx yv g with
    | error e => rw [h1] at h; exact absurd h (by simp [Bind.bind, Except.bind])
    | ok a =>
      rw [h1] at h
      cases h2 : nameRotGroups pfx yv rest with
      | error e =>
        rw [h2] at h
        exact absurd h (by simp [Bind.bind, Except.bind])
      | ok b =>
        rw [h2] at h
        have h3 : out = a ++ b := by
          have : (Except.ok a >>= fun a2 =>
              Except.ok b >>= fun b2 => pure (a2 ++ b2) : Except GTErr (List SymOp)) =
              .ok (a ++ b) := rfl
          rw [this] at h
          cases h
          rfl
        rw [h3]
        simp only [List.flatten_cons, List.map_append, nameRotGroup_map hf pfx yv h1, ih b h2]

theorem nameReflLoop_map {β : Type} {f : SymOp → β} (hf : nameBlind f)
    (ops : List SymOp) :
    ∀ (l : List SymOp) (pv pd ph : Nat) (hp : Bool),
      (nameReflLoop ops pv pd ph hp l).map f = l.map f := by
  intro l
  induction l with
  | nil => intro pv pd ph hp; rfl
  | cons r rest ih =>
    intro pv pd ph hp
    unfold nameReflLoop
    by_cases h1 : is_same_axis r.axis ⟨0, 0, 1⟩ = true
    · rw [if_pos h1]
      simp only [List.map_cons, hf.1 r, ih]
    · rw [if_neg h1]
      by_cases h2 : is_same_axis r.axis ⟨0, 1, 0⟩ = true
      · rw [if_pos h2]
        simp only [List.map_cons, hf.1 r, ih]
      · rw [if_neg h2]
        by_cases h3 : is_same_axis r.axis ⟨1, 0, 0⟩ = true
        · rw [if_pos h3]
          simp only [List.map_cons, hf.1 r, ih]
        · rw [if_neg h3]
          simp only [List.map_cons, hf.1 r, ih]

theorem replaceKind_map {β : Type} {f : SymOp → β} (p : SymOp → Bool) :
    ∀ (l news : List SymOp), news.map f = (l.filter p).map f →
      (replaceKind p news l).map f = l.map f := by
  intro l
  induction l with
  | nil => intro news _; rfl
  | cons o rest ih =>
    intro news hnews
    unfold replaceKind
    by_cases hc : p o = true
    · rw [if_pos hc]
      rw [List.filter_cons_of_pos hc] at hnews
      cases news with
      | nil => exact absurd hnews (by simp)
      | cons n1 ns =>
        simp only [List.map_cons, List.cons.injEq] at hnews
        simp only [List.map_cons, hnews.1, ih ns hnews.2]
    · rw [if_neg hc]
      rw [List.filter_cons_of_neg hc] at hnews
      simp only [List.map_cons, ih news hnews]

/-- The whole naming pass permutes any name-blind projection of the
operation list (the only reordering being the sort). -/
theorem name_operations_perm {β : Type} {f : SymOp → β} (hf : nameBlind f)
    {l l2 : List SymOp} (h : name_operations l = .ok l2) :
    List.Perm (l2.map f) (l.map f) := by
  unfold name_operations at h
  dsimp only at h
  cases h0 : identity_element (sortLe opLE (assignFlags l)) with
  | error e => rw [h0] at h; exact absurd h (by simp)
  | ok e0 =>
    rw [h0] at h
    dsimp only at h
    cases h1 : nameRotGroups "C" ⟨0, 1, 1⟩ (groupRunsBy (fun o => o.n)
        ((setNameFirstKind OpKind.inversion "i" (setNameFirstKind OpKind.identity "E"
          (sortLe opLE (assignFlags l)))).filter (fun o => o.kind == OpKind.rotation))) with
    | error e => rw [h1] at h; exact absurd h (by simp)
    | ok rotsN =>
      rw [h1] at h
      dsimp only at h
      cases h2 : nameRotGroups "S" ⟨0, 1, 0⟩ (groupRunsBy (fun o => o.n)
          ((replaceKind (fun o => o.kind == OpKind.rotation) rotsN
            (setNameFirstKind OpKind.inversion "i" (setNameFirstKind OpKind.identity "E"
              (sortLe opLE (assignFlags l))))).filter
            (fun o => o.kind == OpKind.improperRotation))) with
      | error e => rw [h2] at h; exact absurd h (by simp)
      | ok impsN =>
        rw [h2] at h
        dsimp only at h
        cases h
        have hjoin : ∀ (key : SymOp → Nat) (xs : List SymOp),
            ((groupRunsBy key xs).flatten).map f = xs.map f := by
          intro key xs
          rw [groupRuns_join]
        set s0 := sortLe opLE (assignFlags l) with hs0
        set s1 := setNameFirstKind OpKind.identity "E" s0 with hs1
        set s2 := setNameFirstKind OpKind.inversion "i" s1 with hs2
        set s3 := replaceKind (fun o => o.kind == OpKind.rotation) rotsN s2 with hs3
        set s4 := replaceKind (fun o => o.kind == OpKind.improperRotation) impsN s3 with hs4
        have e1 : s2.map f = s0.map f := by
          rw [hs2, hs1, setNameFirstKind_map hf, setNameFirstKind_map hf]
        have e2 : s3.map f = s2.map f := by
          rw [hs3]
          exact replaceKind_map (fun o => o.kind == OpKind.rotation) s2 rotsN
            (by rw [nameRotGroups_map hf _ _ _ rotsN h1, hjoin])
        have e3 : s4.map f = s3.map f := by
          rw [hs4]
          exact replaceKind_map (fun o => o.kind == OpKind.improperRotation) s3 impsN
            (by rw [nameRotGroups_map hf _ _ _ impsN h2, hjoin])
        have e4 : (replaceKind (fun o => o.kind == OpKind.reflection)
            (nameReflLoop s4 0 0 0 false
              (s4.filter (fun o => o.kind == OpKind.reflection))) s4).map f =
            s4.map f :=
          replaceKind_map (fun o => o.kind == OpKind.reflection) s4 _
            (nameReflLoop_map hf s4 _ 0 0 0 false)
        rw [e4, e3, e2, e1]
        have hperm : List.Perm ((sortLe opLE (assignFlags l)).map f)
            ((assignFlags l).map f) := (sortLe_perm opLE (assignFlags l)).map f
        rw [assignFlags_map hf l] at hperm
        rw [hs0]
        exact hperm

/-! ### Support for the claim theorems -/

theorem map_of_core {β : Type} (f : SymOp → β) (hfc : ∀ o, f (coreOf o) = f o)
    {s t : List SymOp} (h : s.map coreOf = t.map coreOf) : s.map f = t.map f := by
  have hs : s.map f = (s.map coreOf).map f := by
    rw [List.map_map]
    apply List.map_congr_left
    intro a _
    exact (hfc a).symm
  have ht : t.map f = (t.map coreOf).map f := by
    rw [List.map_map]
    apply List.map_congr_left
    intro a _
    exact (hfc a).symm
  rw [hs, ht, h]

/-- The closure pass never touches anything but inverse slots
(unconditionally). -/
theorem closure_step_core {s s3 : List SymOp} {ij : Nat × Nat}
    (h : closure_step s ij = .ok s3) : s3.map coreOf = s.map coreOf := by
  unfold closure_step op_mul at h
  dsimp only at h
  cases h1 : element_with_matrix s
      ((s.getD ij.1 default).matrix.mul (s.getD ij.2 default).matrix) with
  | error e => rw [h1] at h; exact absurd h (by simp)
  | ok p =>
    rw [h1] at h
    dsimp only at h
    cases h2 : identity_element s with
    | error e => rw [h2] at h; exact absurd h (by simp)
    | ok idel =>
      rw [h2] at h
      dsimp only at h
      by_cases h3 : is_same_matrix p.matrix idel.matrix = true
      · rw [h3] at h
        simp only [if_true] at h
        by_cases h4 : (((s.getD ij.1 default).inverse.isSome &&
            (s.getD ij.1 default).inverse != some (s.getD ij.2 default).matrix) ||
            ((s.getD ij.2 default).inverse.isSome &&
              (s.getD ij.2 default).inverse != some (s.getD ij.1 default).matrix))
            = true
        · rw [if_pos h4] at h
          exact absurd h (by simp)
        · rw [if_neg h4] at h
          cases h
          rw [setInverse_map_coreOf, setInverse_map_coreOf]
      · rw [Bool.not_eq_true] at h3
        rw [h3] at h
        simp only [Bool.false_eq_true, if_false] at h
        cases h
        rfl

theorem check_closure_core {ops t : List SymOp}
    (h : check_closure ops = .ok t) : t.map coreOf = ops.map coreOf :=
  exfold_ok_invariant closure_step (fun s => s.map coreOf = ops.map coreOf)
    (pairList ops.length) ops t h rfl
    (fun s2 _ s3 _ hP hok => (closure_step_core hok).trans hP)

/-- Decomposition of a successful construction into its four steps. -/
theorem constructPG_parts {ops : List SymOp} {g : PointGroup}
    (h : constructPG ops = .ok g) :
    ∃ ops1 cls, check_closure ops = .ok ops1 ∧ compute_classes ops1 = .ok cls ∧
      name_operations ops1 = .ok g.operations ∧
      g.classes = sortLe classLE cls ∧ get_name g.operations = .ok g.name := by
  unfold constructPG at h
  cases h1 : check_closure ops with
  | error e => rw [h1] at h; exact absurd h (by simp)
  | ok ops1 =>
    rw [h1] at h
    dsimp only at h
    cases h2 : compute_classes ops1 with
    | error e => rw [h2] at h; exact absurd h (by simp)
    | ok cls =>
      rw [h2] at h
      dsimp only at h
      cases h3 : name_operations ops1 with
      | error e => rw [h3] at h; exact absurd h (by simp)
      | ok ops2 =>
        rw [h3] at h
        dsimp only at h
        cases h4 : get_name ops2 with
        | error e => rw [h4] at h; exact absurd h (by simp)
        | ok nm =>
          rw [h4] at h
          dsimp only at h
          cases h
          exact ⟨ops1, cls, rfl, h2, h3, rfl, h4⟩

theorem constructPG_err_closure {ops : List SymOp} {e : GTErr}
    (h : check_closure ops = .error e) : constructPG ops = .error e := by
  unfold constructPG
  rw [h]

/-- The matrices of a constructed group permute the input matrices. -/
theorem constructPG_matsPerm {ops : List SymOp} {g : PointGroup}
    (h : constructPG ops = .ok g) :
    List.Perm (g.operations.map (fun o => (o.matrix, o.inverse)))
      ((check_closure ops).toOption.getD [] |>.map (fun o => (o.matrix, o.inverse))) := by
  obtain ⟨ops1, cls, h1, _, h3, _, _⟩ := constructPG_parts h
  rw [h1]
  exact name_operations_perm (f := fun o => (o.matrix, o.inverse))
    ⟨fun o nm => rfl, fun o => rfl⟩ h3

/-- The group-like structure of the matrix set after a successful closure
(under the modelled facts that the identity operation carries the identity
matrix and every operation matrix is invertible). -/
theorem goodset_of_closure {ops t : List SymOp} (hid : idOne ops)
    (hfresh : ∀ o ∈ ops, o.inverse = none)
    (hinv : ∀ o ∈ ops, ∃ b : Mat3, b.mul o.matrix = Mat3.one)
    (h : check_closure ops = .ok t) : GoodSet (matsOf ops) := by
  obtain ⟨_, hprod⟩ := check_closure_ok_spec ops t hid hfresh h
  refine ⟨?_, idOne_one_mem hid, ?_⟩
  · intro m1 h1 m2 h2
    obtain ⟨o1, ho1, rfl⟩ := mem_matsOf.mp h1
    obtain ⟨o2, ho2, rfl⟩ := mem_matsOf.mp h2
    obtain ⟨i, hi, hgi⟩ := (mem_iff_getD default ops o1).mp ho1
    obtain ⟨j, hj, hgj⟩ := (mem_iff_getD default ops o2).mp ho2
    have := hprod i j hi hj
    rw [hgi, hgj] at this
    exact this
  · intro m hm
    obtain ⟨o, ho, rfl⟩ := mem_matsOf.mp hm
    exact hinv o ho

/-- After a successful closure, every operation's inverse slot is set to the
matrix of its unique inverse. -/
theorem closure_inverses {ops t : List SymOp} (hid : idOne ops)
    (hfresh : ∀ o ∈ ops, o.inverse = none)
    (hinv : ∀ o ∈ ops, ∃ b : Mat3, b.mul o.matrix = Mat3.one)
    (h : check_closure ops = .ok t) :
    ∀ o ∈ t, ∃ ob ∈ t, o.matrix.mul ob.matrix = Mat3.one ∧
      o.inverse = some ob.matrix ∧ ob.inverse = some o.matrix := by
  intro o ho
  obtain ⟨hP, _⟩ := check_closure_ok_spec ops t hid hfresh h
  have hS := goodset_of_closure hid hfresh hinv h
  obtain ⟨i, hi, hgi⟩ := (mem_iff_getD default t o).mp ho
  have hlen : t.length = ops.length := core_length hP.1
  have hmati : o.matrix = (ops.getD i default).matrix := by
    rw [← hgi]
    exact getD_core_matrix hP.1 i
  have hmem : (ops.getD i default).matrix ∈ matsOf ops :=
    mem_matsOf.mpr ⟨_, getD_mem default ops i (by omega), rfl⟩
  obtain ⟨mi, hmiS, hmi1, _⟩ := hS.inv_mem _ hmem
  obtain ⟨o2, ho2, ho2m⟩ := mem_matsOf.mp hmiS
  obtain ⟨j, hj, hgj⟩ := (mem_iff_getD default ops o2).mp ho2
  have hprod1 : (ops.getD i default).matrix.mul (ops.getD j default).matrix =
      Mat3.one := by
    rw [hgj, ho2m]
    exact hmi1
  obtain ⟨hsi, hsj⟩ := check_closure_slots ops t hid hfresh h i j (by omega) hj hprod1
  refine ⟨t.getD j default, getD_mem default t j (by omega), ?_, ?_, ?_⟩
  · rw [hmati, getD_core_matrix hP.1 j]
    exact hprod1
  · rw [← hgi, hsi, getD_core_matrix hP.1 j]
  · rw [hsj, ← hgi]
    congr 1
    exact (getD_core_matrix hP.1 i).symm

theorem mem_map_perm_transfer {β : Type} {f : SymOp → β} {l1 l2 : List SymOp}
    (hperm : List.Perm (l1.map f) (l2.map f)) {b : β} (hb : ∃ o ∈ l1, f o = b) :
    ∃ o ∈ l2, f o = b := by
  obtain ⟨o, ho, rfl⟩ := hb
  have h2 : f o ∈ l2.map f := hperm.mem_iff.mp (List.mem_map_of_mem f ho)
  obtain ⟨o2, ho2, he⟩ := List.mem_map.mp h2
  exact ⟨o2, ho2, he⟩


theorem constructPG_slot_perm {ops : List SymOp} {g : PointGroup} {ops1 : List SymOp}
    (h1 : check_closure ops = .ok ops1)
    (h3 : name_operations ops1 = .ok g.operations) :
    List.Perm (g.operations.map slotOf) (ops1.map slotOf) :=
  name_operations_perm (f := slotOf) ⟨fun _ _ => rfl, fun _ => rfl⟩ h3

theorem constructPG_matrix_perm {ops : List SymOp} {g : PointGroup}
    (h : constructPG ops = .ok g) :
    List.Perm (g.operations.map (fun o => o.matrix)) (ops.map (fun o => o.matrix)) := by
  obtain ⟨ops1, cls, h1, _, h3, _, _⟩ := constructPG_parts h
  have hcore := check_closure_core h1
  have he : ops1.map (fun o => o.matrix) = ops.map (fun o => o.matrix) :=
    map_of_core (fun o => o.matrix) (fun o => rfl) hcore
  have hperm := name_operations_perm (f := fun o => o.matrix)
    ⟨fun _ _ => rfl, fun _ => rfl⟩ h3
  rw [he] at hperm
  exact hperm

/-! ### The claim theorems -/

/-- C8: construction is deterministic — two constructions from the same
operation list (supplied in the same order) assign identical names to every
operation and produce the identical Schoenflies group name.  (The embedding
is a pure function of the input list, mirroring that the source iterates
lists and stable sorts only, with no dependence on unordered iteration.) -/
theorem claim8_determinism (ops1 ops2 : List SymOp) (h : ops1 = ops2)
    (g1 g2 : PointGroup) (h1 : constructPG ops1 = .ok g1)
    (h2 : constructPG ops2 = .ok g2) :
    g1.operations.map (fun o => o.name) = g2.operations.map (fun o => o.name) ∧
    g1.name = g2.name := by
  subst h
  rw [h1] at h2
  cases h2
  exact ⟨rfl, rfl⟩

/-- C9: with self-extension disabled both lookups raise a fatal
GroupTheoryError when nothing matches: `element_for` raises when no operation
is tolerance-equal to the argument (and returns the first existing matching
element with the operations unchanged when one is, whatever the mode), and
`element_with_matrix` raises the "Group not closed" error when no matrix
matches; with self-extension enabled `element_for` instead appends the
argument and returns it. -/
theorem claim9_lookups :
    (∀ (ops : List SymOp) (op : SymOp), (∀ o ∈ ops, o.matrix ≠ op.matrix) →
      element_for false ops op = .error .opNotFound) ∧
    (∀ (gen : Bool) (ops : List SymOp) (op o : SymOp),
      ops.find? (fun o2 => is_same_matrix o2.matrix op.matrix) = some o →
      element_for gen ops op = .ok (o, ops)) ∧
    (∀ (ops : List SymOp) (op : SymOp), (∀ o ∈ ops, o.matrix ≠ op.matrix) →
      element_for true ops op = .ok (op, ops ++ [op])) ∧
    (∀ (ops : List SymOp) (m : Mat3), (∀ o ∈ ops, o.matrix ≠ m) →
      element_with_matrix ops m = .error (.groupNotClosed m)) := by
  refine ⟨?_, ?_, ?_, ?_⟩
  · intro ops op hno
    unfold element_for
    rw [List.find?_eq_none.mpr (fun o ho => by
      simp only [is_same_matrix_iff]
      exact hno o ho)]
    rfl
  · intro gen ops op o hf
    unfold element_for
    rw [hf]
  · intro ops op hno
    unfold element_for
    rw [List.find?_eq_none.mpr (fun o ho => by
      simp only [is_same_matrix_iff]
      exact hno o ho)]
    rfl
  · intro ops m hno
    exact ewm_error_spec (fun hmem => by
      obtain ⟨o, ho, hom⟩ := mem_matsOf.mp hmem
      exact hno o ho hom)

/-- C10: construction never inserts or removes operations — the constructed
group's operations are a permutation (by the sort during naming) of the input
operations, compared on their immutable identity (kind, order, exponent,
axis, matrix); no element is appended during closure, classification or
naming. -/
theorem claim10_permutation (ops : List SymOp) (g : PointGroup)
    (h : constructPG ops = .ok g) :
    List.Perm (g.operations.map immutOf) (ops.map immutOf) := by
  obtain ⟨ops1, cls, h1, _, h3, _, _⟩ := constructPG_parts h
  have hcore := check_closure_core h1
  have he : ops1.map immutOf = ops.map immutOf :=
    map_of_core immutOf (fun o => rfl) hcore
  have hperm := name_operations_perm (f := immutOf)
    ⟨fun _ _ => rfl, fun _ => rfl⟩ h3
  rw [he] at hperm
  exact hperm

/-- C1: with self-extension disabled (the default, and the only mode the
constructor runs in), whenever some pair of operations has a product matrix
matching no existing element, the construction fails with the GroupNotClosed
fatal error; consequently every successfully constructed group is closed:
the product of any two of its operations is the matrix of one of its
operations.  (The hypotheses are the modelled facts that an identity
operation carrying the identity matrix is present and inverse slots start
unset.) -/
theorem claim1_closure (ops : List SymOp) (hid : idOne ops)
    (hfresh : ∀ o ∈ ops, o.inverse = none) :
    ((∃ a ∈ ops, ∃ b ∈ ops, a.matrix.mul b.matrix ∉ matsOf ops) →
      ∃ m, constructPG ops = .error (.groupNotClosed m)) ∧
    (∀ g, constructPG ops = .ok g → ∀ a ∈ g.operations, ∀ b ∈ g.operations,
      ∃ c ∈ g.operations, c.matrix = a.matrix.mul b.matrix) := by
  constructor
  · rintro ⟨a, ha, b, hb, hbad⟩
    obtain ⟨i, hi, hgi⟩ := (mem_iff_getD default ops a).mp ha
    obtain ⟨j, hj, hgj⟩ := (mem_iff_getD default ops b).mp hb
    obtain ⟨m, herr⟩ := check_closure_err_spec ops hid hfresh i j hi hj
      (by rw [hgi, hgj]; exact hbad)
    exact ⟨m, constructPG_err_closure herr⟩
  · intro g hok a ha b hb
    obtain ⟨ops1, cls, h1, _, h3, _, _⟩ := constructPG_parts hok
    obtain ⟨_, hprod⟩ := check_closure_ok_spec ops ops1 hid hfresh h1
    have hmperm := constructPG_matrix_perm hok
    have hma : ∃ o ∈ ops, o.matrix = a.matrix :=
      mem_map_perm_transfer hmperm ⟨a, ha, rfl⟩
    have hmb : ∃ o ∈ ops, o.matrix = b.matrix :=
      mem_map_perm_transfer hmperm ⟨b, hb, rfl⟩
    obtain ⟨oa, hoa, hoam⟩ := hma
    obtain ⟨ob, hob, hobm⟩ := hmb
    obtain ⟨i, hi, hgi⟩ := (mem_iff_getD default ops oa).mp hoa
    obtain ⟨j, hj, hgj⟩ := (mem_iff_getD default ops ob).mp hob
    have hmem := hprod i j hi hj
    rw [hgi, hgj, hoam, hobm] at hmem
    obtain ⟨c0, hc0, hc0m⟩ := mem_matsOf.mp hmem
    exact mem_map_perm_transfer hmperm.symm ⟨c0, hc0, hc0m⟩

/-- C4: while scanning pairs, a pair whose product is the identity gets both
inverse slots linked symmetrically; a pair whose product is the identity
while an involved slot already holds a different value makes the step abort
with the NonUniqueInverse fatal error; and after successful construction
every operation `a` has an inverse `b` with `a∘b` the identity, the slots
symmetric, and that inverse is unique up to matrix equality. -/
theorem claim4_inverses (ops : List SymOp) (hid : idOne ops)
    (hfresh : ∀ o ∈ ops, o.inverse = none)
    (hinv : ∀ o ∈ ops, ∃ b : Mat3, b.mul o.matrix = Mat3.one) :
    (∀ (s : List SymOp) (ij : Nat × Nat) (p e : SymOp),
      element_with_matrix s
        ((s.getD ij.1 default).matrix.mul (s.getD ij.2 default).matrix) = .ok p →
      identity_element s = .ok e → is_same_matrix p.matrix e.matrix = true →
      (((s.getD ij.1 default).inverse.isSome &&
          (s.getD ij.1 default).inverse != some (s.getD ij.2 default).matrix) ||
        ((s.getD ij.2 default).inverse.isSome &&
          (s.getD ij.2 default).inverse != some (s.getD ij.1 default).matrix))
        = true →
      closure_step s ij = .error .nonUniqueInverse) ∧
    (∀ (t : List SymOp), check_closure ops = .ok t →
      ∀ i j, i < ops.length → j < ops.length →
      (ops.getD i default).matrix.mul (ops.getD j default).matrix = Mat3.one →
      (t.getD i default).inverse = some (ops.getD j default).matrix ∧
      (t.getD j default).inverse = some (ops.getD i default).matrix) ∧
    (∀ g, constructPG ops = .ok g →
      (∀ a ∈ g.operations, ∃ b ∈ g.operations,
        a.matrix.mul b.matrix = Mat3.one ∧ a.inverse = some b.matrix ∧
        b.inverse = some a.matrix) ∧
      (∀ a b c : SymOp, a ∈ g.operations → b ∈ g.operations → c ∈ g.operations →
        a.matrix.mul b.matrix = Mat3.one → a.matrix.mul c.matrix = Mat3.one →
        b.matrix = c.matrix)) := by
  refine ⟨?_, ?_, ?_⟩
  · intro s ij p e hpok heok hsame hconf
    rw [closure_step_eq s ij hpok heok, hsame]
    simp only [if_true]
    rw [if_pos hconf]
  · intro t h1 i j hi hj hprod1
    exact check_closure_slots ops t hid hfresh h1 i j hi hj hprod1
  · intro g hok
    obtain ⟨ops1, cls, h1, _, h3, _, _⟩ := constructPG_parts hok
    have hsperm := constructPG_slot_perm h1 h3
    constructor
    · intro a ha
      obtain ⟨o, ho, hos⟩ := mem_map_perm_transfer hsperm ⟨a, ha, rfl⟩
      obtain ⟨ob, hobt, hprod1, hoinv, hobinv⟩ :=
        closure_inverses hid hfresh hinv h1 o ho
      obtain ⟨b, hb, hbs⟩ := mem_map_perm_transfer hsperm.symm ⟨ob, hobt, rfl⟩
      have hom : o.matrix = a.matrix := congrArg Prod.fst hos
      have hoi : o.inverse = a.inverse := congrArg Prod.snd hos
      have hbm : b.matrix = ob.matrix := congrArg Prod.fst hbs
      have hbi : b.inverse = ob.inverse := congrArg Prod.snd hbs
      refine ⟨b, hb, ?_, ?_, ?_⟩
      · rw [← hom, hbm]
        exact hprod1
      · rw [← hoi, hoinv, hbm]
      · rw [hbi, hobinv, hom]
    · intro a b c _ _ _ hab hac
      exact Mat3.right_inv_unique hab hac

/-- C5: after conjugacy-class construction on a successfully constructed
group, the classes partition the operation set — every operation's matrix is
in some class, the classes are pairwise disjoint and nonempty, and every
class member is the matrix of an operation; and whenever the outer loop
finds an operation already placed in two classes, the step raises the
ClassesNotDisjoint fatal error. -/
theorem claim5_partition (ops : List SymOp) (g : PointGroup) (hid : idOne ops)
    (hfresh : ∀ o ∈ ops, o.inverse = none)
    (hinv : ∀ o ∈ ops, ∃ b : Mat3, b.mul o.matrix = Mat3.one)
    (hok : constructPG ops = .ok g) :
    (∀ op ∈ g.operations, ∃ cl ∈ g.classes, op.matrix ∈ cl) ∧
    List.Pairwise disjCl g.classes ∧
    (∀ cl ∈ g.classes, cl ≠ [] ∧ ∀ x ∈ cl, ∃ op ∈ g.operations, op.matrix = x) ∧
    (∀ (t : List SymOp) (classes : List (List Mat3)) (i : Nat),
      2 ≤ ((List.range classes.length).filter
        (fun k => decide ((t.getD i default).matrix ∈ classes.getD k []))).length →
      classes_step t classes i = .error .classesNotDisjoint) := by
  obtain ⟨ops1, cls, h1, h2, h3, hgc, _⟩ := constructPG_parts hok
  obtain ⟨hP, _⟩ := check_closure_ok_spec ops ops1 hid hfresh h1
  have hmats1 : matsOf ops1 = matsOf ops := core_matsOf hP.1
  have hS : GoodSet (matsOf ops1) := by
    rw [hmats1]
    exact goodset_of_closure hid hfresh hinv h1
  have hslots1 : ∀ o ∈ ops1, ∀ m, o.inverse = some m →
      o.matrix.mul m = Mat3.one := fun o ho m hm => (hP.2 o ho m hm).1
  obtain ⟨hclsOk, hcover⟩ := compute_classes_spec rfl hS hslots1 h2
  have hclsperm : List.Perm g.classes cls := by
    rw [hgc]
    exact sortLe_perm classLE cls
  have hsperm := constructPG_slot_perm h1 h3
  have hmperm : List.Perm (g.operations.map (fun o => o.matrix))
      (ops1.map (fun o => o.matrix)) :=
    name_operations_perm (f := fun o => o.matrix) ⟨fun _ _ => rfl, fun _ => rfl⟩ h3
  refine ⟨?_, ?_, ?_, ?_⟩
  · intro op hop
    obtain ⟨o1, ho1, ho1m⟩ := mem_map_perm_transfer hmperm ⟨op, hop, rfl⟩
    obtain ⟨i, hi, hgi⟩ := (mem_iff_getD default ops1 o1).mp ho1
    obtain ⟨p, hp, hpmem⟩ := hcover i hi
    refine ⟨cls.getD p [], hclsperm.mem_iff.mpr (getD_mem ([] : List Mat3) cls p hp), ?_⟩
    rw [← ho1m, ← hgi]
    exact hpmem
  · exact (hclsperm.pairwise_iff (fun h => disjCl_symm _ _ h)).mpr hclsOk.2
  · intro cl hcl
    have hcl2 : cl ∈ cls := hclsperm.mem_iff.mp hcl
    obtain ⟨hne, hsub⟩ := classesOk_nonempty hS hclsOk cl hcl2
    refine ⟨hne, ?_⟩
    intro x hx
    obtain ⟨o1, ho1, ho1m⟩ := mem_matsOf.mp (hsub x hx)
    exact mem_map_perm_transfer hmperm.symm ⟨o1, ho1, ho1m⟩
  · intro t classes i hlen
    unfold classes_step
    dsimp only
    cases hhits : (List.range classes.length).filter
        (fun k => decide ((t.getD i default).matrix ∈ classes.getD k [])) with
    | nil =>
      rw [hhits] at hlen
      exact absurd hlen (by simp)
    | cons k1 krest =>
      cases krest with
      | nil =>
        rw [hhits] at hlen
        exact absurd hlen (by simp)
      | cons k2 krest2 => rfl

theorem markFirst_id (ax : Vec3) :
    ∀ l : List SymOp,
      (∀ o ∈ l, ¬(o.kind == OpKind.reflection && is_same_axis o.axis ax) = true) →
      markFirst ax l = l := by
  intro l
  induction l with
  | nil => intro _; rfl
  | cons o rest ih =>
    intro hno
    unfold markFirst
    rw [if_neg (hno o (by simp))]
    rw [ih (fun o2 ho2 => hno o2 (List.mem_cons_of_mem o ho2))]

theorem markFirst_found (ax : Vec3) :
    ∀ (pre : List SymOp) (r : SymOp) (post : List SymOp),
      (∀ o ∈ pre, ¬(o.kind == OpKind.reflection && is_same_axis o.axis ax) = true) →
      (r.kind == OpKind.reflection && is_same_axis r.axis ax) = true →
      markFirst ax (pre ++ r :: post) =
        pre ++ { r with principal_reflection := true } :: post := by
  intro pre
  induction pre with
  | nil =>
    intro r post _ hr
    rw [List.nil_append, List.nil_append]
    unfold markFirst
    rw [if_pos hr]
  | cons o rest ih =>
    intro r post hno hr
    rw [List.cons_append, List.cons_append]
    unfold markFirst
    rw [if_neg (hno o (by simp))]
    rw [ih r post (fun o2 ho2 => hno o2 (List.mem_cons_of_mem o ho2)) hr]

/-- C2 (amended): when the first rotation group of the sorted rotations has
order at most 2, the flag pass keys the principal-reflection flag off the
axis of the first rotation of that group — whatever that axis is, not
necessarily the canonical z axis — and flags at most the first reflection
(in the pre-sort operation order) whose axis coincides with it, stopping at
the first match. -/
theorem claim2_principal_flag (ops : List SymOp) (p0 : SymOp) (prest : List SymOp)
    (hfirst : (groupRunsBy (fun o => (o.n, o.exponent))
      (sortLe opLE (ops.filter (fun o => o.kind == OpKind.rotation)))).headD [] =
      p0 :: prest)
    (hn : p0.n ≤ 2) :
    ((∀ o ∈ ops, ¬(o.kind == OpKind.reflection &&
        is_same_axis o.axis p0.axis) = true) →
      assignFlags ops = ops) ∧
    (∀ (pre : List SymOp) (r : SymOp) (post : List SymOp), ops = pre ++ r :: post →
      (r.kind == OpKind.reflection && is_same_axis r.axis p0.axis) = true →
      (∀ o ∈ pre, ¬(o.kind == OpKind.reflection &&
        is_same_axis o.axis p0.axis) = true) →
      assignFlags ops = pre ++ { r with principal_reflection := true } :: post) := by
  have hflags : assignFlags ops = markFirst p0.axis ops := by
    unfold assignFlags
    rw [hfirst]
    dsimp only
    rw [if_neg (by omega)]
  constructor
  · intro hno
    rw [hflags]
    exact markFirst_id p0.axis ops hno
  · intro pre r post hsplit hr hno
    rw [hflags, hsplit]
    exact markFirst_found p0.axis pre r post hno hr

/-- C2 counterexample: in the C2h group oriented along x, a reflection whose
axis is not the canonical z axis is flagged as the principal reflection. -/
theorem claim2_counterexample :
    (constructPG c2hxOps).toOption.map (fun g => g.operations.any
      (fun o => o.principal_reflection && !(is_same_axis o.axis ⟨0, 0, 1⟩))) =
      some true := by
  decide

/-- C3 (amended): in the multi-axis labelling loop, an exponent-1 member
(one of the first `naxes`) whose axis does not match the canonical z
direction receives the "(y)" coordinate suffix exactly when its axis matches
the loop's second comparison vector `yv` — which the rotation branch of the
source sets to the non-unit-looking `Vector(0,1,1)` and the improper-rotation
branch to the canonical `Vector(0,1,0)`; a member matching neither
comparison vector gets a prime-mark label instead.  Concretely, a rotation
with axis (0,1,1) is named "C_2(y)" while an improper rotation with the
canonical y axis (0,1,0) is named "S_4(y)". -/
theorem claim3_y_label :
    (∀ (pfx : String) (yv : Vec3) (order naxes i pc : Nat) (hp : Bool)
      (labels : List String) (rot : SymOp) (rest out : List SymOp),
      labelLoop pfx yv order naxes i pc hp labels (rot :: rest) = .ok out →
      i < naxes → is_same_axis rot.axis ⟨0, 0, 1⟩ = false →
      ((is_same_axis rot.axis yv = true →
        ∃ tail, out = { rot with
          name := pfx ++ "_" ++ toString order ++ "(y)" } :: tail) ∧
       (is_same_axis rot.axis yv = false →
        is_same_axis rot.axis ⟨1, 0, 0⟩ = false →
        ∃ tail, out = { rot with name := pfx ++ "_" ++ toString order ++ primeStr (pc + (if hp then 1 else 0)) } :: tail))) ∧
    ((constructPG d2dOps).toOption.map (fun g => g.operations.any
      (fun o => o.axis == (⟨0, 1, 1⟩ : Vec3) && o.name == "C_2(y)")) =
      some true) ∧
    ((name_operations s4Ops).toOption.map (fun l => l.any
      (fun o => o.axis == (⟨0, 1, 0⟩ : Vec3) && o.name == "S_4(y)")) =
      some true) := by
  refine ⟨?_, by decide, by decide⟩
  intro pfx yv order naxes i pc hp labels rot rest out h hi hz
  unfold labelLoop at h
  rw [if_pos hi, hz] at h
  simp only [Bool.false_eq_true, if_false] at h
  constructor
  · intro hy
    rw [hy] at h
    simp only [if_true] at h
    cases hr : labelLoop pfx yv order naxes (i + 1) pc true (labels ++ ["(y)"]) rest with
    | error e => rw [hr] at h; exact absurd h (by simp)
    | ok out2 =>
      rw [hr] at h
      dsimp only at h
      cases h
      exact ⟨out2, rfl⟩
  · intro hy hx
    rw [hy, hx] at h
    simp only [Bool.false_eq_true, if_false] at h
    cases hr : labelLoop pfx yv order naxes (i + 1) (pc + 1) hp
        (labels ++ [primeStr (pc + (if hp then 1 else 0))]) rest with
    | error e => rw [hr] at h; exact absurd h (by simp)
    | ok out2 =>
      rw [hr] at h
      dsimp only at h
      cases h
      exact ⟨out2, rfl⟩

/-- C3 counterexample: in the standard D2 group, the exponent-1 rotation
whose axis is the canonical y direction (0,1,0) is not named "C_2(y)" (the
rotation branch compares against (0,1,1), so this rotation falls through to
a prime-mark label). -/
theorem claim3_counterexample :
    (constructPG d2Ops).toOption.map (fun g => g.operations.any
      (fun o => o.kind == OpKind.rotation && o.exponent == 1 &&
        o.axis == (⟨0, 1, 0⟩ : Vec3) && o.name != "C_2(y)")) = some true := by
  decide

/-- C6 (amended): for an operation inventory with at least one rotation and
fewer than two exponent-1 rotation *entries* of order above 2 (the code
counts rotation objects, not distinct axes), letting `n` be the order of the
first rotation and counting order-2 rotations perpendicular to its axis, the
classifier returns "D_nh" when a principal reflection exists, else "D_nd"
when the reflection count equals `n`, else "D_n" when there are no
reflections, else the UnclassifiableGroup error, when the perpendicular count
equals `n`; and otherwise "C_nh" when a principal reflection exists, else
"C_nv" when the reflection count equals `n`, else "S_2n" when an improper
rotation of order `2n` exists, else "C_n". -/
theorem claim6_axial_names (ops : List SymOp)
    (hrot : ops.filter (fun o => o.kind == OpKind.rotation) ≠ [])
    (hlt : ((ops.filter (fun o => o.kind == OpKind.rotation)).filter
      (fun r => 2 < r.n && r.exponent == 1)).length < 2) :
    get_name ops =
      (let rots := ops.filter (fun o => o.kind == OpKind.rotation)
      let refls := ops.filter (fun o => o.kind == OpKind.reflection)
      let hd := rots.headD default
      let cnt := (rots.filter (fun r =>
        r.n == 2 && is_perpendicular hd.axis r.axis)).length
      if cnt = hd.n then
        if refls.any (fun r => r.principal_reflection) then
          .ok ("D_" ++ toString hd.n ++ "h")
        else if refls.length = hd.n then .ok ("D_" ++ toString hd.n ++ "d")
        else if refls.length = 0 then .ok ("D_" ++ toString hd.n)
        else .error .unclassifiableGroup
      else
        if refls.any (fun r => r.principal_reflection) then
          .ok ("C_" ++ toString hd.n ++ "h")
        else if refls.length = hd.n then .ok ("C_" ++ toString hd.n ++ "v")
        else if (ops.filter (fun o => o.kind == OpKind.improperRotation)).any
            (fun s2 => s2.n == 2 * hd.n) then .ok ("S_" ++ toString (2 * hd.n))
        else .ok ("C_" ++ toString hd.n)) := by
  unfold get_name
  rw [if_neg (by omega), if_pos (by
    cases hc : ops.filter (fun o => o.kind == OpKind.rotation) with
    | nil => exact absurd hc hrot
    | cons a l => simp)]

/-- C6 counterexample: the cyclic C6 group has a single distinct high-order
rotation axis and at least one rotation, so the claim as stated puts it in
the axial branch and assigns it a name; but the code counts two exponent-1
rotations of order above 2 (the C6 and the C3 about the same axis), enters
the polyhedral branch, finds none of the 12/6/4-axis patterns, and raises
the UnclassifiableGroup fatal error. -/
theorem claim6_counterexample :
    distinctHighOrderAxes c6Ops < 2 ∧
    c6Ops.filter (fun o => o.kind == OpKind.rotation) ≠ [] ∧
    constructPG c6Ops = .error .unclassifiableGroup := by
  refine ⟨by decide, by decide, by decide⟩

/-- C7: for an operation inventory containing no rotations, the Schoenflies
name is "C_s" when exactly one reflection is present, else "C_i" when an
inversion is present, else "C_1" when the group is the identity alone, and
otherwise the UnclassifiableGroup error is raised; in particular the
generator set {E, i} yields "C_i", {E, sigma} yields "C_s", and {E} alone
yields "C_1". -/
theorem claim7_no_rotations :
    (∀ ops : List SymOp, ops.filter (fun o => o.kind == OpKind.rotation) = [] →
      get_name ops =
        (if (ops.filter (fun o => o.kind == OpKind.reflection)).length = 1 then
          .ok "C_s"
        else if ops.any (fun o => o.kind == OpKind.inversion) then .ok "C_i"
        else if ops.length = 1 then .ok "C_1"
        else .error .unclassifiableGroup)) ∧
    (constructPG [opE, opInv]).toOption.map (fun g => g.name) = some "C_i" ∧
    (constructPG [opE, opSyz]).toOption.map (fun g => g.name) = some "C_s" ∧
    (constructPG [opE]).toOption.map (fun g => g.name) = some "C_1" := by
  refine ⟨?_, by decide, by decide, by decide⟩
  intro ops hrots
  unfold get_name
  rw [hrots]
  simp

/-! ### Witnesses: the claim theorems applied at concrete inputs -/

theorem claim8_determinism_witness :
    pgC2v.operations.map (fun o => o.name) =
      pgC2v.operations.map (fun o => o.name) ∧
    pgC2v.name = pgC2v.name :=
  claim8_determinism c2vOps c2vOps rfl pgC2v pgC2v (by decide) (by decide)

theorem claim10_permutation_witness :
    List.Perm (pgC2v.operations.map immutOf) (c2vOps.map immutOf) :=
  claim10_permutation c2vOps pgC2v (by decide)

theorem claim1_closure_witness :
    ((∃ a ∈ c2vOps, ∃ b ∈ c2vOps, a.matrix.mul b.matrix ∉ matsOf c2vOps) →
      ∃ m, constructPG c2vOps = .error (.groupNotClosed m)) ∧
    (∀ g, constructPG c2vOps = .ok g → ∀ a ∈ g.operations, ∀ b ∈ g.operations,
      ∃ c ∈ g.operations, c.matrix = a.matrix.mul b.matrix) :=
  claim1_closure c2vOps ⟨opE, by decide, by decide⟩ (by decide)

theorem claim4_inverses_witness :
    (∀ (s : List SymOp) (ij : Nat × Nat) (p e : SymOp),
      element_with_matrix s
        ((s.getD ij.1 default).matrix.mul (s.getD ij.2 default).matrix) = .ok p →
      identity_element s = .ok e → is_same_matrix p.matrix e.matrix = true →
      (((s.getD ij.1 default).inverse.isSome &&
          (s.getD ij.1 default).inverse != some (s.getD ij.2 default).matrix) ||
        ((s.getD ij.2 default).inverse.isSome &&
          (s.getD ij.2 default).inverse != some (s.getD ij.1 default).matrix))
        = true →
      closure_step s ij = .error .nonUniqueInverse) ∧
    (∀ (t : List SymOp), check_closure c2vOps = .ok t →
      ∀ i j, i < c2vOps.length → j < c2vOps.length →
      (c2vOps.getD i default).matrix.mul (c2vOps.getD j default).matrix =
        Mat3.one →
      (t.getD i default).inverse = some (c2vOps.getD j default).matrix ∧
      (t.getD j default).inverse = some (c2vOps.getD i default).matrix) ∧
    (∀ g, constructPG c2vOps = .ok g →
      (∀ a ∈ g.operations, ∃ b ∈ g.operations,
        a.matrix.mul b.matrix = Mat3.one ∧ a.inverse = some b.matrix ∧
        b.inverse = some a.matrix) ∧
      (∀ a b c : SymOp, a ∈ g.operations → b ∈ g.operations → c ∈ g.operations →
        a.matrix.mul b.matrix = Mat3.one → a.matrix.mul c.matrix = Mat3.one →
        b.matrix = c.matrix)) :=
  claim4_inverses c2vOps ⟨opE, by decide, by decide⟩ (by decide)
    (fun o ho => ⟨o.matrix, by fin_cases ho <;> decide⟩)

theorem claim5_partition_witness :
    (∀ op ∈ pgC2v.operations, ∃ cl ∈ pgC2v.classes, op.matrix ∈ cl) ∧
    List.Pairwise disjCl pgC2v.classes ∧
    (∀ cl ∈ pgC2v.classes, cl ≠ [] ∧
      ∀ x ∈ cl, ∃ op ∈ pgC2v.operations, op.matrix = x) ∧
    (∀ (t : List SymOp) (classes : List (List Mat3)) (i : Nat),
      2 ≤ ((List.range classes.length).filter
        (fun k => decide ((t.getD i default).matrix ∈ classes.getD k []))).length →
      classes_step t classes i = .error .classesNotDisjoint) :=
  claim5_partition c2vOps pgC2v ⟨opE, by decide, by decide⟩ (by decide)
    (fun o ho => ⟨o.matrix, by fin_cases ho <;> decide⟩) (by decide)

theorem claim2_principal_flag_witness :
    ((∀ o ∈ c2hxOps, ¬(o.kind == OpKind.reflection &&
        is_same_axis o.axis opC2x.axis) = true) →
      assignFlags c2hxOps = c2hxOps) ∧
    (∀ (pre : List SymOp) (r : SymOp) (post : List SymOp),
      c2hxOps = pre ++ r :: post →
      (r.kind == OpKind.reflection && is_same_axis r.axis opC2x.axis) = true →
      (∀ o ∈ pre, ¬(o.kind == OpKind.reflection &&
        is_same_axis o.axis opC2x.axis) = true) →
      assignFlags c2hxOps =
        pre ++ { r with principal_reflection := true } :: post) :=
  claim2_principal_flag c2hxOps opC2x [] (by decide) (by decide)

theorem claim6_axial_names_witness :
    get_name c2vOps =
      (let rots := c2vOps.filter (fun o => o.kind == OpKind.rotation)
      let refls := c2vOps.filter (fun o => o.kind == OpKind.reflection)
      let hd := rots.headD default
      let cnt := (rots.filter (fun r =>
        r.n == 2 && is_perpendicular hd.axis r.axis)).length
      if cnt = hd.n then
        if refls.any (fun r => r.principal_reflection) then
          .ok ("D_" ++ toString hd.n ++ "h")
        else if refls.length = hd.n then .ok ("D_" ++ toString hd.n ++ "d")
        else if refls.length = 0 then .ok ("D_" ++ toString hd.n)
        else .error .unclassifiableGroup
      else
        if refls.any (fun r => r.principal_reflection) then
          .ok ("C_" ++ toString hd.n ++ "h")
        else if refls.length = hd.n then .ok ("C_" ++ toString hd.n ++ "v")
        else if (c2vOps.filter (fun o => o.kind == OpKind.improperRotation)).any
            (fun s2 => s2.n == 2 * hd.n) then .ok ("S_" ++ toString (2 * hd.n))
        else .ok ("C_" ++ toString hd.n)) :=
  claim6_axial_names c2vOps (by decide) (by decide)

end PG
